import Mathlib

/-!
Verification of the motive animation-engine processor substrate: the index
allocator over variable-width slot runs, the processor base class with its
back-pointer table and handle-rebinding protocol, and the polymorphic
processor faces (scalar-N and matrix).  Definitions follow
`src/include/motive/processor.h`; method bodies that live outside the
provided sources (the allocator and the processor `.cpp` bodies) are
modelled from the specification, as marked on each definition.
-/

namespace MotiveSpec

/-- A contiguous slot run `[base, base + width)` owned by one motivator handle. -/
structure Run where
  base : Nat
  width : Nat
deriving DecidableEq

/-- Callback events emitted by the index allocator to the owning processor
(`SetNumIndices`, `MoveIndexRange` in `processor.h` lines 218-231). -/
inductive AllocEvent where
  | setNumIndices (n : Nat)
  | moveIndexRange (base width target : Nat)
deriving DecidableEq

/-- Modelled from the spec: the state of `fplutil::IndexAllocator` (only its
declaration is among the sources) — the set of live runs, the free list of
freed runs (each retaining its width), and the high-water mark `num`. -/
structure AllocState where
  live : List Run
  free : List Run
  num : Nat
deriving DecidableEq

/-- Modelled from the spec: `Allocate(width)` — if the free list contains a run
of exactly `width`, remove and return it; otherwise extend the high-water mark
by `width`, emit `SetNumIndices(new_total)`, and return the old high-water
mark. -/
def allocate (a : AllocState) (w : Nat) : AllocState × Nat × List AllocEvent :=
  match a.free.find? (fun r => r.width == w) with
  | some r => ({ live := r :: a.live, free := a.free.erase r, num := a.num }, r.base, [])
  | none =>
      ({ live := ⟨a.num, w⟩ :: a.live, free := a.free, num := a.num + w },
        a.num, [AllocEvent.setNumIndices (a.num + w)])

/-- Modelled from the spec: `Free(base)` — look up the run's width in the live
set and push the run onto the free list; the high-water mark does not shrink
and no relocation event is emitted. -/
def freeRun (a : AllocState) (b : Nat) : AllocState :=
  match a.live.find? (fun r => r.base == b) with
  | some r => { live := a.live.erase r, free := r :: a.free, num := a.num }
  | none => a

/-- Modelled from the spec: `CountForIndex(slot)` — the run's width when `slot`
is the base of a live run, and 0 otherwise (in particular on interior slots). -/
def countForIndex (a : AllocState) (i : Nat) : Nat :=
  match a.live.find? (fun r => r.base == i) with
  | some r => r.width
  | none => 0

/-- Modelled from the spec: `ValidIndex(slot)` — true when the slot falls
inside any live run. -/
def validIndex (a : AllocState) (i : Nat) : Bool :=
  a.live.any (fun r => decide (r.base ≤ i ∧ i < r.base + r.width))

/-- Sum of the widths of a list of runs. -/
def sumW (l : List Run) : Nat :=
  (l.map Run.width).sum

/-- Highest end of any run in the list (`0` when the list is empty); applied to
the live set this is the post-defragmentation high-water mark. -/
def maxEnd (l : List Run) : Nat :=
  l.foldr (fun r acc => max (r.base + r.width) acc) 0

/-- Slot `i` lies inside some run of list `l`. -/
def inRuns (l : List Run) (i : Nat) : Prop :=
  ∃ r ∈ l, r.base ≤ i ∧ i < r.base + r.width

instance (l : List Run) (i : Nat) : Decidable (inRuns l i) := by
  unfold inRuns; infer_instance

/-- Two runs occupy disjoint slot ranges. -/
def RunDisj (r r' : Run) : Prop :=
  r.base + r.width ≤ r'.base ∨ r'.base + r'.width ≤ r.base

instance (r r' : Run) : Decidable (RunDisj r r') := by
  unfold RunDisj; infer_instance

/-- Lookup in an association list from handle ids to bound base slots. -/
def blookup : List (Nat × Nat) → Nat → Option Nat
  | [], _ => none
  | p :: ps, h => if p.1 = h then some p.2 else blookup ps h

/-- Remove every entry for handle `h` (used when a handle is Reset). -/
def removeKey : List (Nat × Nat) → Nat → List (Nat × Nat)
  | [], _ => []
  | p :: ps, h => if p.1 = h then removeKey ps h else p :: removeKey ps h

/-- Rebind handle `h` to base `b`, keeping the entry order. -/
def updateBinding (l : List (Nat × Nat)) (h b : Nat) : List (Nat × Nat) :=
  l.map (fun p => if p.1 = h then (p.1, b) else p)

/-- Resize a list to length `n`, padding with `d` (the model of the processor's
`SetNumIndices` resizing its parallel arrays). -/
def resize (l : List α) (n : Nat) (d : α) : List α :=
  (l ++ List.replicate (n - l.length) d).take n

/-- Read the slice `[b, b + w)` of a list. -/
def slice (l : List α) (b w : Nat) : List α :=
  (l.drop b).take w

/-- Overwrite positions `b, b+1, ...` of `l` with the elements of `vs`
(writes beyond the length of `l` are dropped, as `List.set` does). -/
def sliceWrite : List α → Nat → List α → List α
  | l, _, [] => l
  | l, b, v :: vs => sliceWrite (l.set b v) (b + 1) vs

/-- Pad or cut `vals` to exactly `w` entries (the derivation writes one datum
per slot of the new run). -/
def padTo (w : Nat) (vals : List Int) : List Int :=
  (vals ++ List.replicate w 0).take w

/-- Full system state: one processor — allocator state, back-pointer table
`mot` (`motivators_` in `processor.h` line 240), per-slot derivation data —
together with the external handles' bindings, an association list from handle
id to the bound base slot (a handle absent from the list is Reset). -/
structure Sys where
  alloc : AllocState
  mot : List (Option Nat)
  data : List Int
  bindings : List (Nat × Nat)
deriving DecidableEq

/-- The empty processor: no runs, empty tables, no bound handle. -/
def sys0 : Sys :=
  { alloc := { live := [], free := [], num := 0 }, mot := [], data := [], bindings := [] }

/-- From `processor.h` lines 153-155: `Dimensions(index)` proxies to
`index_allocator_.CountForIndex(index)`. -/
def Dimensions (s : Sys) (i : Nat) : Nat :=
  countForIndex s.alloc i

/-- From `processor.h` lines 128-130: `ValidMotivator(index, motivator)`
returns `ValidIndex(index) && motivators_[index] == motivator`. -/
def ValidMotivator (s : Sys) (i : Nat) (m : Option Nat) : Bool :=
  validIndex s.alloc i && (s.mot.getD i none == m)

/-- Modelled from the spec: `InitializeMotivator` (body in the missing
`processor.cpp`) — allocate a run, grow the parallel arrays via the allocator
callback, write the handle at the base, let the derivation populate the new
run (`InitializeIndices`, modelled as writing `padTo w vals`), and bind the
handle to the base. -/
def initMotivator (s : Sys) (h w : Nat) (vals : List Int) : Sys :=
  let res := allocate s.alloc w
  let a' := res.1
  let base := res.2.1
  { alloc := a'
    mot := (resize s.mot a'.num none).set base (some h)
    data := sliceWrite (resize s.data a'.num 0) base (padTo w vals)
    bindings := (h, base) :: s.bindings }

/-- Modelled from the spec: `RemoveMotivator(index)` (body in the missing
`processor.cpp`) — notify the derivation (`RemoveIndices`, a no-op for plain
arrays), clear the back-pointer at the base, free the run, and Reset the
handle that was bound there. -/
def removeMotivator (s : Sys) (b : Nat) : Sys :=
  { alloc := freeRun s.alloc b
    mot := s.mot.set b none
    data := s.data
    bindings :=
      match s.mot.getD b none with
      | some h => removeKey s.bindings h
      | none => s.bindings }

/-- Modelled from the spec: `TransferMotivator(index, new_motivator)` (body in
the missing `processor.cpp`) — Reset the currently bound handle, store the new
handle at `back_pointer[index]`, and bind the new handle to this base; the
per-slot data is untouched. -/
def transferMotivator (s : Sys) (b : Nat) (h2 : Nat) : Sys :=
  { alloc := s.alloc
    mot := s.mot.set b (some h2)
    data := s.data
    bindings :=
      match s.mot.getD b none with
      | some h1 => (h2, b) :: removeKey s.bindings h1
      | none => (h2, b) :: s.bindings }

/-- Modelled from the spec: one relocation step of `Defragment`, fused with the
processor's `MoveIndexRangeBase` callback handler — move the live run `ar`
(the one with the highest base) into the free run `fr` (the one with the
lowest base), split any leftover of `fr` back onto the free list, copy the
per-slot data, move the back-pointer entry, and rebind the owning handle to
the new base. -/
def moveRun (s : Sys) (ar fr : Run) : Sys :=
  let h := s.mot.getD ar.base none
  let rest := s.alloc.free.erase fr
  { alloc :=
      { live := ⟨fr.base, ar.width⟩ :: s.alloc.live.erase ar
        free :=
          if ar.width < fr.width then
            ⟨fr.base + ar.width, fr.width - ar.width⟩ :: rest
          else rest
        num := s.alloc.num }
    mot := (s.mot.set fr.base h).set ar.base none
    data := sliceWrite s.data fr.base (slice s.data ar.base ar.width)
    bindings :=
      match h with
      | some hh => updateBinding s.bindings hh fr.base
      | none => s.bindings }

/-- Modelled from the spec: the guard-and-act of the `Defragment` loop: pick
the free run with the lowest base and the live run with the highest base; when
the free run lies entirely below the live run and the live run fits inside it,
relocate, otherwise stop (`none`). -/
def defragStep? (s : Sys) : Option Sys :=
  match s.alloc.free.argmin Run.base, s.alloc.live.argmax Run.base with
  | some fr, some ar =>
      if fr.base + fr.width ≤ ar.base ∧ ar.width ≤ fr.width then some (moveRun s ar fr)
      else none
  | _, _ => none

/-- Relocation loop of `Defragment`, driven by explicit fuel (the total free
width bounds the number of iterations, since every step shrinks it). -/
def defragLoop : Nat → Sys → Sys
  | 0, s => s
  | fuel + 1, s =>
    match defragStep? s with
    | none => s
    | some s' => defragLoop fuel s'

/-- Modelled from the spec: the final `SetNumIndices(new_total)` of
`Defragment`, fused with the processor's `SetNumIndicesBase` handler —
truncate the high-water mark to the highest live end, drop free runs beyond
it, and shrink the parallel arrays. -/
def truncateSys (s : Sys) : Sys :=
  let n := maxEnd s.alloc.live
  { alloc :=
      { live := s.alloc.live
        free := s.alloc.free.filter (fun r => decide (r.base + r.width ≤ n))
        num := n }
    mot := s.mot.take n
    data := s.data.take n
    bindings := s.bindings }

/-- Modelled from the spec: `Defragment()` (`processor.h` line 204 delegates to
the allocator, whose body is not among the sources) — run the relocation loop
to fixpoint, then truncate to the new high-water mark. -/
def defragment (s : Sys) : Sys :=
  truncateSys (defragLoop (sumW s.alloc.free) s)

/-- The public operations on a processor, as consumed by handle and engine
code. -/
inductive Op where
  | init (h w : Nat) (vals : List Int)
  | remove (b : Nat)
  | transfer (b : Nat) (h : Nat)
  | defrag

/-- Step function: interpret one public operation. -/
def stepOp (s : Sys) : Op → Sys
  | Op.init h w vals => initMotivator s h w vals
  | Op.remove b => removeMotivator s b
  | Op.transfer b h => transferMotivator s b h
  | Op.defrag => defragment s

/-- Programmer-contract preconditions of the public operations (violating them
is undefined behaviour per the spec's error taxonomy): a new handle must be
fresh and of positive width, removal and transfer must name a live base, and
the transfer target must currently be Reset. -/
def ValidOp (s : Sys) : Op → Prop
  | Op.init h w _ => 1 ≤ w ∧ blookup s.bindings h = none
  | Op.remove b => ∃ r ∈ s.alloc.live, r.base = b
  | Op.transfer b h => (∃ r ∈ s.alloc.live, r.base = b) ∧ blookup s.bindings h = none
  | Op.defrag => True

instance (s : Sys) (o : Op) : Decidable (ValidOp s o) := by
  cases o <;> (unfold ValidOp; infer_instance)

/-- States reachable from the empty processor by valid public operations. -/
inductive Reach : Sys → Prop
  | nil : Reach sys0
  | snoc {s : Sys} {o : Op} : Reach s → ValidOp s o → Reach (stepOp s o)

/-- Slot `i` is the base of some live run. -/
def isLiveBase (a : AllocState) (i : Nat) : Prop :=
  ∃ r ∈ a.live, r.base = i

instance (a : AllocState) (i : Nat) : Decidable (isLiveBase a i) := by
  unfold isLiveBase; infer_instance

/-- The base slot `b` carries a handle whose binding entry points back at
`b` (stated over the binding entries so that it stays decidable). -/
def ownerOk (s : Sys) (b : Nat) : Prop :=
  ∃ p ∈ s.bindings, p.2 = b ∧ s.mot.getD b none = some p.1

instance (s : Sys) (b : Nat) : Decidable (ownerOk s b) := by
  unfold ownerOk; infer_instance

/-- The processor's internal-state invariant (what `VerifyInternalState`
checks, plus the allocator's structural well-formedness): the parallel arrays
have the allocator's length; live and free runs are pairwise disjoint,
in-range, of positive width, and tile `[0, num)`; every live base holds a
handle bound back to it; every non-base slot holds null; every binding entry
names a live base holding exactly that handle; and no handle is bound
twice. -/
def Inv (s : Sys) : Prop :=
  s.mot.length = s.alloc.num ∧
  s.data.length = s.alloc.num ∧
  (s.alloc.live ++ s.alloc.free).Pairwise RunDisj ∧
  (∀ r ∈ s.alloc.live ++ s.alloc.free, r.base + r.width ≤ s.alloc.num) ∧
  (∀ r ∈ s.alloc.live ++ s.alloc.free, 1 ≤ r.width) ∧
  (∀ i < s.alloc.num, inRuns (s.alloc.live ++ s.alloc.free) i) ∧
  (∀ r ∈ s.alloc.live, ownerOk s r.base) ∧
  (∀ i < s.alloc.num, ¬ isLiveBase s.alloc i → s.mot.getD i none = none) ∧
  (∀ p ∈ s.bindings, isLiveBase s.alloc p.2 ∧ s.mot.getD p.2 none = some p.1) ∧
  (s.bindings.map Prod.fst).Nodup

instance (s : Sys) : Decidable (Inv s) := by
  unfold Inv; infer_instance

/-- All runs of the processor (live and free) share the common width `w`. -/
def Uniform (w : Nat) (s : Sys) : Prop :=
  ∀ r ∈ s.alloc.live ++ s.alloc.free, r.width = w

instance (w : Nat) (s : Sys) : Decidable (Uniform w s) := by
  unfold Uniform; infer_instance

/-- Value preservation between an original state `s0` and a later state `s`:
every handle bound in `s0` is still bound, to a live run of the same width
holding the same per-slot data slice. -/
def PreservesRuns (s0 s : Sys) : Prop :=
  ∀ h r0, r0 ∈ s0.alloc.live → blookup s0.bindings h = some r0.base →
    ∃ b, blookup s.bindings h = some b ∧ Run.mk b r0.width ∈ s.alloc.live ∧
      slice s.data b r0.width = slice s0.data r0.base r0.width

/-- The invariant maintained inside the `Defragment` relocation loop: as `Inv`
except that coverage is demanded only below the current highest live end —
the slots vacated by relocated runs above it belong to no run until the final
truncation. -/
def LInv (s : Sys) : Prop :=
  s.mot.length = s.alloc.num ∧
  s.data.length = s.alloc.num ∧
  (s.alloc.live ++ s.alloc.free).Pairwise RunDisj ∧
  (∀ r ∈ s.alloc.live ++ s.alloc.free, r.base + r.width ≤ s.alloc.num) ∧
  (∀ r ∈ s.alloc.live ++ s.alloc.free, 1 ≤ r.width) ∧
  (∀ i < maxEnd s.alloc.live, inRuns (s.alloc.live ++ s.alloc.free) i) ∧
  (∀ r ∈ s.alloc.live, ownerOk s r.base) ∧
  (∀ i < s.alloc.num, ¬ isLiveBase s.alloc i → s.mot.getD i none = none) ∧
  (∀ p ∈ s.bindings, isLiveBase s.alloc p.2 ∧ s.mot.getD p.2 none = some p.1) ∧
  (s.bindings.map Prod.fst).Nodup

/-- The set of slots covered by a list of runs, as a finite set (used to count
slots of a gap-free tiling). -/
def runsSet (l : List Run) : Finset Nat :=
  l.foldr (fun r acc => Finset.Ico r.base (r.base + r.width) ∪ acc) ∅

/-- A reachable processor state whose free list holds a width-1 run below a
width-2 live run: allocate widths 1 and 2, then remove the width-1 handle. -/
def cxS : Sys :=
  removeMotivator (initMotivator (initMotivator sys0 1 1 [10]) 2 2 [20, 30]) 0

/-- A reachable uniform-width (2) processor state with a free run below a
live run: allocate two width-2 handles, then remove the lower one. -/
def uxS : Sys :=
  removeMotivator (initMotivator (initMotivator sys0 1 2 [10, 11]) 2 2 [20, 21]) 0

/-- Target descriptor for one dimension (`MotiveTarget1f`): a (value,
velocity, time) waypoint. -/
structure MotiveTarget1f where
  value : Int
  velocity : Int
  time : Int
deriving DecidableEq

/-- Curve-shape descriptor (`MotiveCurveShape`): typical time, typical
distance, bias. -/
structure MotiveCurveShape where
  typicalDeltaValue : Int := 0
  typicalTotalTime : Int := 0
  bias : Int := 0
deriving DecidableEq

/-- An opaque compact spline (externally defined, identified here by id). -/
structure CompactSpline where
  id : Nat
deriving DecidableEq

/-- Spline playback descriptor: start time, playback rate, looping flag. -/
structure SplinePlayback where
  startTime : Int := 0
  rate : Int := 1
  looping : Bool := false
deriving DecidableEq

/-- A derivation of `MotiveProcessorNf` (`processor.h` lines 264-360): the
pure-virtual readers and `TargetTime` are mandatory fields; every `virtual`
method with an inline default body is an `Option` field, `none` meaning the
derivation keeps the base-class default. `σ` is the derivation's state type
and `α` its scalar type. -/
structure MotiveProcessorNf (σ α : Type) where
  Values : σ → Nat → List α
  Velocities : σ → Nat → Nat → List α
  TargetValues : σ → Nat → Nat → List α
  TargetVelocities : σ → Nat → Nat → List α
  Differences : σ → Nat → Nat → List α
  TargetTime : σ → Nat → Nat → Int
  DirectionsOv : Option (σ → Nat → Nat → List α) := none
  SplineTimeOv : Option (σ → Nat → Int) := none
  MotiveShapeOv : Option (σ → Nat → MotiveCurveShape) := none
  SetTargetsOv : Option (σ → Nat → Nat → List MotiveTarget1f → σ) := none
  SetTargetWithShapeOv : Option (σ → Nat → Nat → List α → List α → MotiveCurveShape → σ) := none
  SetSplinesOv : Option (σ → Nat → Nat → List CompactSpline → SplinePlayback → σ) := none
  SplinesOv : Option (σ → Nat → Nat → List (Option CompactSpline)) := none
  SetSplinesAndTargetsOv :
    Option (σ → Nat → Nat → List (Option CompactSpline) → SplinePlayback → List MotiveTarget1f → σ) := none
  SetSplineTimeOv : Option (σ → Nat → Nat → Int → σ) := none
  SetSplinePlaybackRateOv : Option (σ → Nat → Nat → Int → σ) := none

namespace MotiveProcessorNf

variable {σ α : Type}

/-- Virtual dispatch of `Directions` (`processor.h` lines 299-302): the default
body delegates to `Velocities`. -/
def callDirections (d : MotiveProcessorNf σ α) (s : σ) (i dims : Nat) : List α :=
  match d.DirectionsOv with
  | some f => f s i dims
  | none => d.Velocities s i dims

/-- Virtual dispatch of `SetTargets` (lines 323-324): the default body is
empty, leaving the state unchanged. -/
def callSetTargets (d : MotiveProcessorNf σ α) (s : σ) (i dims : Nat)
    (ts : List MotiveTarget1f) : σ :=
  match d.SetTargetsOv with
  | some f => f s i dims ts
  | none => s

/-- Virtual dispatch of `SetTargetWithShape` (lines 328-332): empty default. -/
def callSetTargetWithShape (d : MotiveProcessorNf σ α) (s : σ) (i dims : Nat)
    (tv tvel : List α) (shape : MotiveCurveShape) : σ :=
  match d.SetTargetWithShapeOv with
  | some f => f s i dims tv tvel shape
  | none => s

/-- Virtual dispatch of `SetSplines` (lines 335-337): empty default. -/
def callSetSplines (d : MotiveProcessorNf σ α) (s : σ) (i dims : Nat)
    (sp : List CompactSpline) (pb : SplinePlayback) : σ :=
  match d.SetSplinesOv with
  | some f => f s i dims sp pb
  | none => s

/-- Virtual dispatch of `Splines` (lines 341-344): the default body writes
`nullptr` into every one of the `count` output entries. -/
def callSplines (d : MotiveProcessorNf σ α) (s : σ) (i count : Nat) :
    List (Option CompactSpline) :=
  match d.SplinesOv with
  | some f => f s i count
  | none => List.replicate count none

/-- Virtual dispatch of `SetSplinesAndTargets` (lines 348-352): empty
default. -/
def callSetSplinesAndTargets (d : MotiveProcessorNf σ α) (s : σ) (i dims : Nat)
    (sp : List (Option CompactSpline)) (pb : SplinePlayback)
    (ts : List MotiveTarget1f) : σ :=
  match d.SetSplinesAndTargetsOv with
  | some f => f s i dims sp pb ts
  | none => s

/-- Virtual dispatch of `SetSplineTime` (lines 354-356): empty default. -/
def callSetSplineTime (d : MotiveProcessorNf σ α) (s : σ) (i dims : Nat)
    (t : Int) : σ :=
  match d.SetSplineTimeOv with
  | some f => f s i dims t
  | none => s

/-- Virtual dispatch of `SetSplinePlaybackRate` (lines 357-359): empty
default. -/
def callSetSplinePlaybackRate (d : MotiveProcessorNf σ α) (s : σ) (i dims : Nat)
    (rate : Int) : σ :=
  match d.SetSplinePlaybackRateOv with
  | some f => f s i dims rate
  | none => s

/-- Single-value reader `Value` (line 269): `return Values(index)[0]`. -/
def Value [Inhabited α] (d : MotiveProcessorNf σ α) (s : σ) (i : Nat) : α :=
  (d.Values s i).headI

/-- Single-value reader `Velocity` (lines 270-274): call `Velocities` with
dimensions 1 into a one-float buffer and return it. -/
def Velocity [Inhabited α] (d : MotiveProcessorNf σ α) (s : σ) (i : Nat) : α :=
  (d.Velocities s i 1).headI

/-- Single-value reader `Direction` (lines 275-279): call `Directions` with
dimensions 1 into a one-float buffer and return it. -/
def Direction [Inhabited α] (d : MotiveProcessorNf σ α) (s : σ) (i : Nat) : α :=
  (callDirections d s i 1).headI

/-- Single-value reader `TargetValue` (lines 280-284). -/
def TargetValue [Inhabited α] (d : MotiveProcessorNf σ α) (s : σ) (i : Nat) : α :=
  (d.TargetValues s i 1).headI

/-- Single-value reader `TargetVelocity` (lines 285-289). -/
def TargetVelocity [Inhabited α] (d : MotiveProcessorNf σ α) (s : σ) (i : Nat) : α :=
  (d.TargetVelocities s i 1).headI

/-- Single-value reader `Difference` (lines 290-294). -/
def Difference [Inhabited α] (d : MotiveProcessorNf σ α) (s : σ) (i : Nat) : α :=
  (d.Differences s i 1).headI

end MotiveProcessorNf

/-- A derivation of `MatrixProcessor4f` (`processor.h` lines 365-395):
mandatory pure-virtual operations plus the two defaulted driver methods
`SetChildTarget1f` and `BlendToOps`, whose inline default bodies are empty.
`σ` is the derivation state, `μ` the matrix type, `ω` the operation-array
type. -/
structure MatrixProcessor4f (σ μ ω : Type) where
  Value : σ → Nat → μ
  NumChildren : σ → Nat → Nat
  ChildValues : σ → Nat → Nat → Nat → List Int
  ChildMotivator1f : σ → Nat → Nat → Option Nat
  SetChildValues : σ → Nat → Nat → Nat → List Int → σ
  SetPlaybackRate : σ → Nat → Int → σ
  SetChildTarget1fOv : Option (σ → Nat → Nat → MotiveTarget1f → σ) := none
  BlendToOpsOv : Option (σ → Nat → ω → SplinePlayback → σ) := none

namespace MatrixProcessor4f

variable {σ μ ω : Type}

/-- Virtual dispatch of `SetChildTarget1f` (lines 383-385): empty default. -/
def callSetChildTarget1f (d : MatrixProcessor4f σ μ ω) (s : σ) (i child : Nat)
    (t : MotiveTarget1f) : σ :=
  match d.SetChildTarget1fOv with
  | some f => f s i child t
  | none => s

/-- Virtual dispatch of `BlendToOps` (lines 390-391): empty default. -/
def callBlendToOps (d : MatrixProcessor4f σ μ ω) (s : σ) (ops : ω) (i : Nat)
    (pb : SplinePlayback) : σ :=
  match d.BlendToOpsOv with
  | some f => f s i ops pb
  | none => s

end MatrixProcessor4f

/-- A sample scalar-N derivation that, like the spec's scenario 5, implements
only the `SetSplines` driver and keeps every other defaulted method at its
base-class default. Its state is a single counter. -/
def exNf : MotiveProcessorNf Nat Int :=
  { Values := fun s _ => [Int.ofNat s, 0]
    Velocities := fun _ _ n => List.replicate n 2
    TargetValues := fun _ _ n => List.replicate n 3
    TargetVelocities := fun _ _ n => List.replicate n 4
    Differences := fun _ _ n => List.replicate n 5
    TargetTime := fun _ _ _ => 0
    SetSplinesOv := some (fun s _ _ sp _ => s + sp.length) }

/-- A sample matrix derivation that keeps both defaulted driver methods at
their base-class defaults. -/
def exMat : MatrixProcessor4f Nat Nat Nat :=
  { Value := fun s _ => s
    NumChildren := fun _ _ => 0
    ChildValues := fun _ _ _ _ => []
    ChildMotivator1f := fun _ _ _ => none
    SetChildValues := fun s _ _ _ _ => s
    SetPlaybackRate := fun s _ _ => s }

/-- A concrete processor holding one width-2 run at base 0 owned by handle 5,
used by several witnesses. -/
def v1ex : Sys := initMotivator sys0 5 2 [7, 8]

theorem getD_replicate {α : Type} (n j : Nat) (a d : α) (h : j < n) :
    (List.replicate n a).getD j d = a := by
  induction n generalizing j with
  | zero => omega
  | succ m ih =>
    cases j with
    | zero => rfl
    | succ k => exact ih k (by omega)

/-- C4: any driver method whose default body the derivation does not override
is a silent no-op — the state (hence `Values` and all per-slot observables) is
unchanged and, the embedding being total, no abort or exception occurs; shown
for each defaulted driver of the scalar-N face and of the matrix face. -/
theorem claim4_defaulted_drivers_noop {σ α τ μ ω : Type}
    (d : MotiveProcessorNf σ α) (m : MatrixProcessor4f τ μ ω) (s : σ) (t : τ)
    (i dims child : Nat) (ts : List MotiveTarget1f) (tv tvel : List α)
    (shape : MotiveCurveShape) (sp : List CompactSpline)
    (spo : List (Option CompactSpline)) (pb : SplinePlayback)
    (time rate : Int) (tg : MotiveTarget1f) (ops : ω) :
    (d.SetTargetsOv = none →
      MotiveProcessorNf.callSetTargets d s i dims ts = s ∧
      d.Values (MotiveProcessorNf.callSetTargets d s i dims ts) i = d.Values s i) ∧
    (d.SetTargetWithShapeOv = none →
      MotiveProcessorNf.callSetTargetWithShape d s i dims tv tvel shape = s) ∧
    (d.SetSplinesOv = none → MotiveProcessorNf.callSetSplines d s i dims sp pb = s) ∧
    (d.SetSplinesAndTargetsOv = none →
      MotiveProcessorNf.callSetSplinesAndTargets d s i dims spo pb ts = s) ∧
    (d.SetSplineTimeOv = none → MotiveProcessorNf.callSetSplineTime d s i dims time = s) ∧
    (d.SetSplinePlaybackRateOv = none →
      MotiveProcessorNf.callSetSplinePlaybackRate d s i dims rate = s) ∧
    (m.SetChildTarget1fOv = none → MatrixProcessor4f.callSetChildTarget1f m t i child tg = t) ∧
    (m.BlendToOpsOv = none → MatrixProcessor4f.callBlendToOps m t ops i pb = t) := by
  refine ⟨fun h => ?_, fun h => ?_, fun h => ?_, fun h => ?_, fun h => ?_, fun h => ?_,
    fun h => ?_, fun h => ?_⟩
  · have hs : MotiveProcessorNf.callSetTargets d s i dims ts = s := by
      unfold MotiveProcessorNf.callSetTargets; rw [h]
    exact ⟨hs, by rw [hs]⟩
  · unfold MotiveProcessorNf.callSetTargetWithShape; rw [h]
  · unfold MotiveProcessorNf.callSetSplines; rw [h]
  · unfold MotiveProcessorNf.callSetSplinesAndTargets; rw [h]
  · unfold MotiveProcessorNf.callSetSplineTime; rw [h]
  · unfold MotiveProcessorNf.callSetSplinePlaybackRate; rw [h]
  · unfold MatrixProcessor4f.callSetChildTarget1f; rw [h]
  · unfold MatrixProcessor4f.callBlendToOps; rw [h]

theorem claim4_witness :
    exNf.SetTargetsOv = none ∧
    MotiveProcessorNf.callSetTargets exNf 3 0 1 [⟨10, 0, 10⟩] = 3 ∧
    exMat.BlendToOpsOv = none ∧
    MatrixProcessor4f.callBlendToOps exMat 5 7 0 {} = 5 := by
  refine ⟨rfl, ?_, rfl, ?_⟩
  · exact ((claim4_defaulted_drivers_noop exNf exMat 3 5 0 1 0 [⟨10, 0, 10⟩] [] [] {} [] []
      {} 0 0 ⟨0, 0, 0⟩ 7).1 rfl).1
  · exact (claim4_defaulted_drivers_noop exNf exMat 3 5 0 1 0 [⟨10, 0, 10⟩] [] [] {} [] []
      {} 0 0 ⟨0, 0, 0⟩ 7).2.2.2.2.2.2.2 rfl

/-- C8: for a scalar-N derivation that does not override `Directions`, the
default writes into the output exactly the values `Velocities` writes, for any
base and width. -/
theorem claim8_directions_default_velocities {σ α : Type} (d : MotiveProcessorNf σ α)
    (hd : d.DirectionsOv = none) (s : σ) (base w : Nat) :
    MotiveProcessorNf.callDirections d s base w = d.Velocities s base w := by
  unfold MotiveProcessorNf.callDirections; rw [hd]

theorem claim8_witness :
    exNf.DirectionsOv = none ∧
    MotiveProcessorNf.callDirections exNf 0 0 2 = [2, 2] :=
  ⟨rfl, (claim8_directions_default_velocities exNf rfl 0 0 2).trans rfl⟩

/-- C9: each convenience single-value reader of the scalar-N face equals its
bulk operation at width 1: `Value(base)` is `Values(base)[0]`, and `Velocity`,
`Direction`, `TargetValue`, `TargetVelocity`, `Difference` each return the
single float the corresponding bulk reader writes when called with
dimensions = 1. -/
theorem claim9_single_readers {σ α : Type} [Inhabited α] (d : MotiveProcessorNf σ α)
    (s : σ) (i : Nat) (v0 v1 v2 v3 v4 v5 : α) (rest : List α) :
    (d.Values s i = v0 :: rest → MotiveProcessorNf.Value d s i = v0) ∧
    (d.Velocities s i 1 = [v1] → MotiveProcessorNf.Velocity d s i = v1) ∧
    (MotiveProcessorNf.callDirections d s i 1 = [v2] →
      MotiveProcessorNf.Direction d s i = v2) ∧
    (d.TargetValues s i 1 = [v3] → MotiveProcessorNf.TargetValue d s i = v3) ∧
    (d.TargetVelocities s i 1 = [v4] → MotiveProcessorNf.TargetVelocity d s i = v4) ∧
    (d.Differences s i 1 = [v5] → MotiveProcessorNf.Difference d s i = v5) := by
  refine ⟨fun h => ?_, fun h => ?_, fun h => ?_, fun h => ?_, fun h => ?_, fun h => ?_⟩
  · unfold MotiveProcessorNf.Value; rw [h]; rfl
  · unfold MotiveProcessorNf.Velocity; rw [h]; rfl
  · unfold MotiveProcessorNf.Direction; rw [h]; rfl
  · unfold MotiveProcessorNf.TargetValue; rw [h]; rfl
  · unfold MotiveProcessorNf.TargetVelocity; rw [h]; rfl
  · unfold MotiveProcessorNf.Difference; rw [h]; rfl

theorem claim9_witness :
    exNf.Values 3 0 = 3 :: [0] ∧
    MotiveProcessorNf.Value exNf 3 0 = 3 ∧
    exNf.Velocities 3 0 1 = [2] ∧
    MotiveProcessorNf.Velocity exNf 3 0 = 2 := by
  refine ⟨rfl, ?_, rfl, ?_⟩
  · exact (claim9_single_readers exNf 3 0 3 2 2 3 4 5 [0]).1 rfl
  · exact (claim9_single_readers exNf 3 0 3 2 2 3 4 5 [0]).2.1 rfl

/-- C10: for a scalar-N derivation that does not override the `Splines`
getter, the default writes `nullptr` into all `count` output entries — every
dimension reports that no spline is driving it. -/
theorem claim10_default_splines_null {σ α : Type} (d : MotiveProcessorNf σ α)
    (hd : d.SplinesOv = none) (s : σ) (i count : Nat) :
    MotiveProcessorNf.callSplines d s i count = List.replicate count none ∧
    ∀ j < count, (MotiveProcessorNf.callSplines d s i count).getD j (some ⟨0⟩) = none := by
  have h : MotiveProcessorNf.callSplines d s i count = List.replicate count none := by
    unfold MotiveProcessorNf.callSplines; rw [hd]
  exact ⟨h, fun j hj => by
    rw [h]; exact getD_replicate count j none (some (CompactSpline.mk 0)) hj⟩

theorem claim10_witness :
    exNf.SplinesOv = none ∧
    MotiveProcessorNf.callSplines exNf 0 0 3 = [none, none, none] :=
  ⟨rfl, ((claim10_default_splines_null exNf rfl 0 0 3).1).trans rfl⟩

theorem runDisj_symm : Symmetric RunDisj := by
  intro r r' h
  exact h.symm

theorem find?_base_self {l : List Run} {r : Run} (hd : l.Pairwise RunDisj)
    (hw : ∀ x ∈ l, 1 ≤ x.width) (hr : r ∈ l) :
    l.find? (fun x => x.base == r.base) = some r := by
  induction l with
  | nil => cases hr
  | cons a t ih =>
    rcases List.mem_cons.mp hr with h | h
    · subst h
      simp [List.find?_cons]
    · have hdisj : RunDisj a r := (List.pairwise_cons.mp hd).1 r h
      have hwa : 1 ≤ a.width := hw a (List.mem_cons_self a t)
      have hwr : 1 ≤ r.width := hw r (List.mem_cons.mpr (Or.inr h))
      have hne : a.base ≠ r.base := by
        intro hb
        rcases hdisj with hc | hc <;> omega
      rw [List.find?_cons]
      have : (a.base == r.base) = false := by
        simpa using hne
      rw [this]
      exact ih (List.pairwise_cons.mp hd).2 (fun x hx => hw x (List.mem_cons.mpr (Or.inr hx))) h

theorem blookup_mem {l : List (Nat × Nat)} {h b : Nat} (hl : blookup l h = some b) :
    (h, b) ∈ l := by
  induction l with
  | nil => cases hl
  | cons p t ih =>
    unfold blookup at hl
    by_cases hp : p.1 = h
    · rw [if_pos hp] at hl
      have hb : p.2 = b := Option.some.inj hl
      have hpe : p = (h, b) := by
        cases p
        simp only [Prod.mk.injEq]
        exact ⟨hp, hb⟩
      rw [← hpe]
      exact List.mem_cons_self p t
    · rw [if_neg hp] at hl
      exact List.mem_cons.mpr (Or.inr (ih hl))

theorem blookup_of_mem_nodup {l : List (Nat × Nat)} {h b : Nat}
    (hnd : (l.map Prod.fst).Nodup) (hm : (h, b) ∈ l) :
    blookup l h = some b := by
  induction l with
  | nil => cases hm
  | cons p t ih =>
    rcases List.mem_cons.mp hm with he | ht
    · subst he
      unfold blookup
      rw [if_pos rfl]
    · have hp : p.1 ≠ h := by
        intro hph
        have : h ∈ t.map Prod.fst := List.mem_map.mpr ⟨(h, b), ht, rfl⟩
        rw [List.map_cons, List.nodup_cons] at hnd
        exact hnd.1 (hph ▸ this)
      unfold blookup
      rw [if_neg hp]
      exact ih (List.nodup_cons.mp (by rwa [List.map_cons] at hnd)).2 ht

theorem blookup_eq_none {l : List (Nat × Nat)} {h : Nat} (hl : blookup l h = none) :
    ∀ b, (h, b) ∉ l := by
  intro b hm
  induction l with
  | nil => cases hm
  | cons p t ih =>
    unfold blookup at hl
    by_cases hp : p.1 = h
    · rw [if_pos hp] at hl
      cases hl
    · rw [if_neg hp] at hl
      rcases List.mem_cons.mp hm with he | ht
      · exact hp (by rw [← he])
      · exact ih hl ht

/-- Inversion of `Inv` to the handle-level owner fact used by most proofs. -/
theorem inv_owner {s : Sys} (hInv : Inv s) {r : Run} (hr : r ∈ s.alloc.live) :
    ∃ h, s.mot.getD r.base none = some h ∧ blookup s.bindings h = some r.base := by
  obtain ⟨-, -, -, -, -, -, hown, -, -, hnd⟩ := hInv
  obtain ⟨p, hp, hpb, hpm⟩ := hown r hr
  exact ⟨p.1, hpm, by rw [← hpb]; exact blookup_of_mem_nodup hnd hp⟩

/-- Inversion of `Inv` for a successful handle lookup. -/
theorem inv_bindSound {s : Sys} (hInv : Inv s) {h b : Nat}
    (hl : blookup s.bindings h = some b) :
    isLiveBase s.alloc b ∧ s.mot.getD b none = some h := by
  obtain ⟨-, -, -, -, -, -, -, -, hbe, -⟩ := hInv
  exact hbe (h, b) (blookup_mem hl)

theorem validIndex_iff (a : AllocState) (i : Nat) :
    validIndex a i = true ↔ inRuns a.live i := by
  unfold validIndex inRuns
  rw [List.any_eq_true]
  constructor
  · rintro ⟨r, hr, hp⟩
    exact ⟨r, hr, of_decide_eq_true hp⟩
  · rintro ⟨r, hr, hp⟩
    exact ⟨r, hr, decide_eq_true hp⟩

theorem getD_set_self {α : Type} {l : List α} {i : Nat} (v d : α) (h : i < l.length) :
    (l.set i v).getD i d = v := by
  simp [List.getD_eq_getElem?_getD, List.getElem?_set_self h]

theorem getD_set_ne {α : Type} {l : List α} {i j : Nat} (v d : α) (h : i ≠ j) :
    (l.set i v).getD j d = l.getD j d := by
  simp [List.getD_eq_getElem?_getD, List.getElem?_set_ne h]

theorem blookup_cons (p : Nat × Nat) (t : List (Nat × Nat)) (h : Nat) :
    blookup (p :: t) h = if p.1 = h then some p.2 else blookup t h :=
  rfl

theorem removeKey_cons (p : Nat × Nat) (t : List (Nat × Nat)) (h : Nat) :
    removeKey (p :: t) h = if p.1 = h then removeKey t h else p :: removeKey t h :=
  rfl

theorem blookup_removeKey_self (l : List (Nat × Nat)) (h : Nat) :
    blookup (removeKey l h) h = none := by
  induction l with
  | nil => rfl
  | cons p t ih =>
    rw [removeKey_cons]
    by_cases hp : p.1 = h
    · rw [if_pos hp]
      exact ih
    · rw [if_neg hp, blookup_cons, if_neg hp]
      exact ih

theorem blookup_removeKey_ne {l : List (Nat × Nat)} {h h' : Nat} (hne : h' ≠ h) :
    blookup (removeKey l h) h' = blookup l h' := by
  induction l with
  | nil => rfl
  | cons p t ih =>
    rw [removeKey_cons]
    by_cases hp : p.1 = h
    · rw [if_pos hp, ih, blookup_cons]
      have hp' : p.1 ≠ h' := by rw [hp]; exact fun he => hne he.symm
      rw [if_neg hp']
    · rw [if_neg hp, blookup_cons, blookup_cons]
      by_cases hq : p.1 = h'
      · rw [if_pos hq, if_pos hq]
      · rw [if_neg hq, if_neg hq]
        exact ih

theorem removeKey_cons_self (l : List (Nat × Nat)) (h : Nat) (b : Nat) :
    removeKey ((h, b) :: l) h = removeKey l h := by
  rw [removeKey_cons, if_pos rfl]

/-- C5: with `H1` bound to base `b` and `H2` Reset, `TransferMotivator(b, H2)`
Resets `H1`, stores `H2` at `back_pointer[b]`, binds `H2` to `b`, and leaves
the per-slot data untouched; transferring back with `TransferMotivator(b, H1)`
restores every back-pointer entry, every handle binding, and the data to
their original values. -/
theorem claim5_transfer_roundtrip (s : Sys) (b h1 h2 : Nat) (hInv : Inv s)
    (hb1 : blookup s.bindings h1 = some b) (hb2 : blookup s.bindings h2 = none) :
    (transferMotivator s b h2).data = s.data ∧
    (transferMotivator s b h2).mot.getD b none = some h2 ∧
    blookup (transferMotivator s b h2).bindings h2 = some b ∧
    blookup (transferMotivator s b h2).bindings h1 = none ∧
    (∀ h, h ≠ h1 → h ≠ h2 →
      blookup (transferMotivator s b h2).bindings h = blookup s.bindings h) ∧
    (transferMotivator (transferMotivator s b h2) b h1).data = s.data ∧
    (∀ i, (transferMotivator (transferMotivator s b h2) b h1).mot.getD i none =
      s.mot.getD i none) ∧
    (∀ h, blookup (transferMotivator (transferMotivator s b h2) b h1).bindings h =
      blookup s.bindings h) := by
  obtain ⟨hbase, hmot⟩ := inv_bindSound hInv hb1
  have hlen : b < s.mot.length := by
    obtain ⟨hml, -, -, hbnd, hwp, -⟩ := hInv
    obtain ⟨r, hr, hrb⟩ := hbase
    have h1le := hbnd r (List.mem_append.mpr (Or.inl hr))
    have h2le := hwp r (List.mem_append.mpr (Or.inl hr))
    omega
  have hne12 : h1 ≠ h2 := fun he => by rw [he, hb2] at hb1; cases hb1
  have ht1mot : (transferMotivator s b h2).mot = s.mot.set b (some h2) := rfl
  have hgetb : (s.mot.set b (some h2)).getD b none = some h2 :=
    getD_set_self (some h2) none hlen
  have ht1bind : (transferMotivator s b h2).bindings =
      (h2, b) :: removeKey s.bindings h1 := by
    show (match s.mot.getD b none with
      | some h0 => (h2, b) :: removeKey s.bindings h0
      | none => (h2, b) :: s.bindings) = (h2, b) :: removeKey s.bindings h1
    rw [hmot]
  have ht2mot : (transferMotivator (transferMotivator s b h2) b h1).mot =
      (s.mot.set b (some h2)).set b (some h1) := rfl
  have ht2bind : (transferMotivator (transferMotivator s b h2) b h1).bindings =
      (h1, b) :: removeKey ((h2, b) :: removeKey s.bindings h1) h2 := by
    show (match (transferMotivator s b h2).mot.getD b none with
      | some h0 => (h1, b) :: removeKey (transferMotivator s b h2).bindings h0
      | none => (h1, b) :: (transferMotivator s b h2).bindings) = _
    rw [ht1mot, hgetb, ht1bind]
  refine ⟨rfl, by rw [ht1mot]; exact hgetb, ?_, ?_, ?_, rfl, ?_, ?_⟩
  · rw [ht1bind, blookup_cons, if_pos rfl]
  · rw [ht1bind, blookup_cons, if_neg fun he => hne12 he.symm]
    exact blookup_removeKey_self s.bindings h1
  · intro h hh1 hh2
    rw [ht1bind, blookup_cons, if_neg fun he => hh2 he.symm]
    exact blookup_removeKey_ne hh1
  · intro i
    rw [ht2mot]
    by_cases hi : i = b
    · subst hi
      rw [getD_set_self (some h1) none (by simpa using hlen), hmot]
    · rw [getD_set_ne (some h1) none (fun he => hi he.symm),
        getD_set_ne (some h2) none (fun he => hi he.symm)]
  · intro h
    rw [ht2bind, removeKey_cons_self, blookup_cons]
    by_cases hh1 : h = h1
    · rw [if_pos hh1.symm, hh1, hb1]
    · rw [if_neg fun he => hh1 he.symm]
      by_cases hh2 : h = h2
      · rw [hh2, blookup_removeKey_self, hb2]
      · rw [blookup_removeKey_ne fun he => hh2 he,
          blookup_removeKey_ne fun he => hh1 he]

theorem claim5_witness :
    Inv v1ex ∧ blookup v1ex.bindings 5 = some 0 ∧ blookup v1ex.bindings 9 = none ∧
    blookup (transferMotivator v1ex 0 9).bindings 9 = some 0 ∧
    blookup (transferMotivator v1ex 0 9).bindings 5 = none ∧
    (transferMotivator (transferMotivator v1ex 0 9) 0 5).data = v1ex.data := by
  have hc := claim5_transfer_roundtrip v1ex 0 5 9 (by decide) (by decide) (by decide)
  exact ⟨by decide, by decide, by decide, hc.2.2.1, hc.2.2.2.1, hc.2.2.2.2.2.1⟩

/-- C6: `Allocate(w)` returns the base of a free-list run of exactly width `w`
when one exists, removing it from the free list, leaving the high-water mark
alone and emitting no event; otherwise it returns the old high-water mark,
extends it by `w`, and emits `SetNumIndices(new_total)`. -/
theorem claim6_allocate (a : AllocState) (w : Nat) (hw : 1 ≤ w) :
    ((∃ r ∈ a.free, r.width = w) →
      ∃ r ∈ a.free, r.width = w ∧
        (allocate a w).2.1 = r.base ∧
        (allocate a w).1.free = a.free.erase r ∧
        (allocate a w).1.live = r :: a.live ∧
        (allocate a w).1.num = a.num ∧
        (allocate a w).2.2 = []) ∧
    ((∀ r ∈ a.free, r.width ≠ w) →
      (allocate a w).2.1 = a.num ∧
      (allocate a w).1.num = a.num + w ∧
      (allocate a w).2.2 = [AllocEvent.setNumIndices (a.num + w)] ∧
      (allocate a w).1.free = a.free ∧
      (allocate a w).1.live = Run.mk a.num w :: a.live) := by
  constructor
  · rintro ⟨r0, hr0, hw0⟩
    cases hfind : a.free.find? (fun r => r.width == w) with
    | none =>
      exfalso
      have := List.find?_eq_none.mp hfind r0 hr0
      simp [hw0] at this
    | some r =>
      refine ⟨r, List.mem_of_find?_eq_some hfind, ?_, ?_⟩
      · have := List.find?_some hfind
        simpa using this
      · simp [allocate, hfind]
  · intro hnone
    have hfind : a.free.find? (fun r => r.width == w) = none := by
      apply List.find?_eq_none.mpr
      intro r hr
      simpa using hnone r hr
    simp [allocate, hfind]

theorem claim6_witness :
    1 ≤ 2 ∧
    ((∃ r ∈ (AllocState.mk [] [Run.mk 0 2] 2).free, r.width = 2) →
      ∃ r ∈ (AllocState.mk [] [Run.mk 0 2] 2).free, r.width = 2 ∧
        (allocate (AllocState.mk [] [Run.mk 0 2] 2) 2).2.1 = r.base) := by
  refine ⟨by decide, fun hex => ?_⟩
  rcases (claim6_allocate (AllocState.mk [] [Run.mk 0 2] 2) 2 (by decide)).1 hex with
    ⟨r, hr, hw, hb, _⟩
  exact ⟨r, hr, hw, hb⟩

/-- C7: `Dimensions(i)` equals the allocator's `CountForIndex(i)`; on the base
of a live run it is that run's width, and on an interior slot of a live run it
is 0. -/
theorem claim7_dimensions (s : Sys) (i : Nat)
    (hd : s.alloc.live.Pairwise RunDisj)
    (hw : ∀ r ∈ s.alloc.live, 1 ≤ r.width) :
    Dimensions s i = countForIndex s.alloc i ∧
    (∀ r ∈ s.alloc.live, r.base = i → Dimensions s i = r.width) ∧
    ((∃ r ∈ s.alloc.live, r.base < i ∧ i < r.base + r.width) → Dimensions s i = 0) := by
  refine ⟨rfl, ?_, ?_⟩
  · intro r hr hb
    have := find?_base_self hd hw hr
    rw [hb] at this
    simp [Dimensions, countForIndex, this]
  · rintro ⟨r, hr, hlt, hend⟩
    have hfind : s.alloc.live.find? (fun x => x.base == i) = none := by
      apply List.find?_eq_none.mpr
      intro x hx
      simp only [beq_iff_eq]
      intro hxb
      have hne : x ≠ r := by
        intro he
        subst he
        omega
      have hdisj : RunDisj x r :=
        List.Pairwise.forall runDisj_symm hd hx hr hne
      have hwx : 1 ≤ x.width := hw x hx
      rcases hdisj with hc | hc <;> omega
    simp [Dimensions, countForIndex, hfind]

/-- C3 fails as stated: in a reachable processor with one live run `[0, 2)`,
index 1 is not the base of any live run, yet `ValidMotivator(1, nullptr)`
returns true — the code checks `ValidIndex` (membership anywhere inside a live
run), not base-hood, and the interior back-pointer entry is null. -/
theorem claim3_counterexample :
    ValidMotivator v1ex 1 none = true ∧ ¬ ∃ r ∈ v1ex.alloc.live, r.base = 1 := by
  decide

/-- C3 amended: `ValidMotivator(i, h)` is true iff `i` lies inside a live run
and the back-pointer entry at `i` equals `h`; and for every non-null handle
pointer, under the processor invariant, this is equivalent to the original
claim — `i` is the base of a live run whose back-pointer entry equals the
handle. -/
theorem claim3_amended (s : Sys) (i : Nat) (hInv : Inv s) (h : Nat) :
    (∀ m : Option Nat,
      ValidMotivator s i m = true ↔ inRuns s.alloc.live i ∧ s.mot.getD i none = m) ∧
    (ValidMotivator s i (some h) = true ↔
      isLiveBase s.alloc i ∧ s.mot.getD i none = some h) := by
  have hval : ∀ m : Option Nat,
      ValidMotivator s i m = true ↔ inRuns s.alloc.live i ∧ s.mot.getD i none = m := by
    intro m
    unfold ValidMotivator
    rw [Bool.and_eq_true, validIndex_iff, beq_iff_eq]
  refine ⟨hval, ?_⟩
  rw [hval (some h)]
  obtain ⟨-, -, -, hbnd, hwp, -, -, hnnb, -, -⟩ := hInv
  constructor
  · rintro ⟨hin, hget⟩
    refine ⟨?_, hget⟩
    by_contra hnb
    obtain ⟨r, hr, hlo, hhi⟩ := hin
    have hi : i < s.alloc.num :=
      lt_of_lt_of_le hhi (hbnd r (List.mem_append.mpr (Or.inl hr)))
    rw [hnnb i hi hnb] at hget
    cases hget
  · rintro ⟨⟨r, hr, hb⟩, hget⟩
    refine ⟨⟨r, hr, ?_, ?_⟩, hget⟩
    · omega
    · have := hwp r (List.mem_append.mpr (Or.inl hr))
      omega

theorem claim3_amended_witness :
    Inv v1ex ∧
    (ValidMotivator v1ex 0 (some 5) = true ↔
      isLiveBase v1ex.alloc 0 ∧ v1ex.mot.getD 0 none = some 5) :=
  ⟨by decide, (claim3_amended v1ex 0 (by decide) 5).2⟩

theorem sliceWrite_length {α : Type} (vs : List α) : ∀ (l : List α) (b : Nat),
    (sliceWrite l b vs).length = l.length := by
  induction vs with
  | nil => intro l b; rfl
  | cons v t ih =>
    intro l b
    show (sliceWrite (l.set b v) (b + 1) t).length = l.length
    rw [ih]
    simp

theorem getElem?_sliceWrite_lt {α : Type} (vs : List α) : ∀ (l : List α) (b i : Nat),
    i < b → (sliceWrite l b vs)[i]? = l[i]? := by
  induction vs with
  | nil => intro l b i _; rfl
  | cons v t ih =>
    intro l b i hi
    show (sliceWrite (l.set b v) (b + 1) t)[i]? = l[i]?
    rw [ih ((l.set b v)) (b + 1) i (by omega), List.getElem?_set_ne (by omega)]

theorem getElem?_sliceWrite_ge {α : Type} (vs : List α) : ∀ (l : List α) (b i : Nat),
    b + vs.length ≤ i → (sliceWrite l b vs)[i]? = l[i]? := by
  induction vs with
  | nil => intro l b i _; rfl
  | cons v t ih =>
    intro l b i hi
    rw [List.length_cons] at hi
    show (sliceWrite (l.set b v) (b + 1) t)[i]? = l[i]?
    rw [ih ((l.set b v)) (b + 1) i (by omega), List.getElem?_set_ne (by omega)]

theorem getElem?_sliceWrite_in {α : Type} (vs : List α) : ∀ (l : List α) (b i : Nat),
    b ≤ i → i < b + vs.length → b + vs.length ≤ l.length →
    (sliceWrite l b vs)[i]? = vs[i - b]? := by
  induction vs with
  | nil =>
    intro l b i h1 h2 _
    rw [List.length_nil] at h2
    omega
  | cons v t ih =>
    intro l b i h1 h2 h3
    rw [List.length_cons] at h2 h3
    show (sliceWrite (l.set b v) (b + 1) t)[i]? = (v :: t)[i - b]?
    by_cases hib : i = b
    · subst hib
      rw [getElem?_sliceWrite_lt t _ _ _ (by omega),
        List.getElem?_set_self (by omega), Nat.sub_self, List.getElem?_cons_zero]
    · rw [ih (l.set b v) (b + 1) i (by omega) (by omega)
        (by rw [List.length_set]; omega)]
      have hh : i - b = (i - (b + 1)) + 1 := by omega
      rw [hh, List.getElem?_cons_succ]

theorem slice_len_le {α : Type} (l : List α) (b w : Nat) : (slice l b w).length ≤ w := by
  unfold slice
  rw [List.length_take]
  omega

theorem slice_length {α : Type} (l : List α) (b w : Nat) (h : b + w ≤ l.length) :
    (slice l b w).length = w := by
  unfold slice
  rw [List.length_take, List.length_drop]
  omega

theorem getElem?_slice {α : Type} (l : List α) (b w j : Nat) (hj : j < w) :
    (slice l b w)[j]? = l[b + j]? := by
  unfold slice
  rw [List.getElem?_take_of_lt hj, List.getElem?_drop]

theorem slice_sliceWrite_self {α : Type} (l vs : List α) (b : Nat)
    (h : b + vs.length ≤ l.length) :
    slice (sliceWrite l b vs) b vs.length = vs := by
  apply List.ext_getElem?
  intro j
  by_cases hj : j < vs.length
  · rw [getElem?_slice _ _ _ _ hj,
      getElem?_sliceWrite_in vs l b (b + j) (by omega) (by omega) h]
    congr 1
    omega
  · rw [List.getElem?_eq_none (le_trans (slice_len_le _ _ _) (by omega)),
      List.getElem?_eq_none (by omega)]

theorem slice_sliceWrite_outside {α : Type} (l vs : List α) (b b0 w0 : Nat)
    (h : b + vs.length ≤ b0 ∨ b0 + w0 ≤ b) :
    slice (sliceWrite l b vs) b0 w0 = slice l b0 w0 := by
  apply List.ext_getElem?
  intro j
  by_cases hj : j < w0
  · rw [getElem?_slice _ _ _ _ hj, getElem?_slice _ _ _ _ hj]
    rcases h with h | h
    · exact getElem?_sliceWrite_ge vs l b (b0 + j) (by omega)
    · exact getElem?_sliceWrite_lt vs l b (b0 + j) (by omega)
  · rw [List.getElem?_eq_none (le_trans (slice_len_le _ _ _) (by omega)),
      List.getElem?_eq_none (le_trans (slice_len_le _ _ _) (by omega))]

theorem slice_take {α : Type} (l : List α) (n b w : Nat) (h : b + w ≤ n) :
    slice (l.take n) b w = slice l b w := by
  apply List.ext_getElem?
  intro j
  by_cases hj : j < w
  · rw [getElem?_slice _ _ _ _ hj, getElem?_slice _ _ _ _ hj,
      List.getElem?_take_of_lt (by omega)]
  · rw [List.getElem?_eq_none (le_trans (slice_len_le _ _ _) (by omega)),
      List.getElem?_eq_none (le_trans (slice_len_le _ _ _) (by omega))]

theorem getD_take_lt {α : Type} (l : List α) (n i : Nat) (d : α) (h : i < n) :
    (l.take n).getD i d = l.getD i d := by
  rw [List.getD_eq_getElem?_getD, List.getD_eq_getElem?_getD,
    List.getElem?_take_of_lt h]

theorem resize_length {α : Type} (l : List α) (n : Nat) (d : α) :
    (resize l n d).length = n := by
  unfold resize
  rw [List.length_take, List.length_append, List.length_replicate]
  omega

theorem getElem?_resize_lt {α : Type} (l : List α) (n i : Nat) (d : α)
    (h1 : i < n) (h2 : i < l.length) : (resize l n d)[i]? = l[i]? := by
  unfold resize
  rw [List.getElem?_take_of_lt h1, List.getElem?_append_left h2]

theorem getElem?_resize_new {α : Type} (l : List α) (n i : Nat) (d : α)
    (h1 : i < n) (h2 : l.length ≤ i) : (resize l n d)[i]? = some d := by
  unfold resize
  rw [List.getElem?_take_of_lt h1, List.getElem?_append_right h2,
    List.getElem?_replicate_of_lt (by omega)]

theorem resize_eq_self {α : Type} (l : List α) (d : α) : resize l l.length d = l := by
  unfold resize
  rw [Nat.sub_self]
  simp

theorem sumW_cons (r : Run) (l : List Run) : sumW (r :: l) = r.width + sumW l := by
  unfold sumW
  rw [List.map_cons, List.sum_cons]

theorem sumW_erase {l : List Run} {r : Run} (h : r ∈ l) :
    sumW l = r.width + sumW (l.erase r) := by
  induction l with
  | nil => cases h
  | cons a t ih =>
    by_cases ha : a = r
    · subst ha
      rw [List.erase_cons_head, sumW_cons]
    · rcases List.mem_cons.mp h with he | ht
      · exact absurd he.symm ha
      · rw [List.erase_cons_tail (by simpa using fun he => ha he),
          sumW_cons, sumW_cons, ih ht]
        omega

theorem maxEnd_cons (r : Run) (l : List Run) :
    maxEnd (r :: l) = max (r.base + r.width) (maxEnd l) :=
  rfl

theorem le_maxEnd {l : List Run} {r : Run} (h : r ∈ l) : r.base + r.width ≤ maxEnd l := by
  induction l with
  | nil => cases h
  | cons a t ih =>
    rw [maxEnd_cons]
    rcases List.mem_cons.mp h with he | ht
    · subst he
      exact Nat.le_max_left _ _
    · exact le_trans (ih ht) (Nat.le_max_right _ _)

theorem maxEnd_le {l : List Run} {n : Nat} (h : ∀ r ∈ l, r.base + r.width ≤ n) :
    maxEnd l ≤ n := by
  induction l with
  | nil => exact Nat.zero_le n
  | cons a t ih =>
    rw [maxEnd_cons]
    exact max_le (h a (List.mem_cons_self a t))
      (ih fun r hr => h r (List.mem_cons.mpr (Or.inr hr)))

theorem updateBinding_keys (l : List (Nat × Nat)) (h b : Nat) :
    (updateBinding l h b).map Prod.fst = l.map Prod.fst := by
  unfold updateBinding
  rw [List.map_map]
  apply List.map_congr_left
  intro p hp
  by_cases hph : p.1 = h <;> simp [hph]

theorem updateBinding_cons (p : Nat × Nat) (t : List (Nat × Nat)) (h b : Nat) :
    updateBinding (p :: t) h b =
      (if p.1 = h then (p.1, b) else p) :: updateBinding t h b :=
  rfl

theorem blookup_updateBinding_self {l : List (Nat × Nat)} {h b0 : Nat} (b : Nat)
    (hl : blookup l h = some b0) :
    blookup (updateBinding l h b) h = some b := by
  induction l with
  | nil => cases hl
  | cons p t ih =>
    rw [updateBinding_cons]
    rw [blookup_cons] at hl
    by_cases hp : p.1 = h
    · rw [if_pos hp, blookup_cons, if_pos hp]
    · rw [if_neg hp] at hl
      rw [if_neg hp, blookup_cons, if_neg hp]
      exact ih hl

theorem blookup_updateBinding_ne (l : List (Nat × Nat)) {h h' : Nat} (b : Nat)
    (hne : h' ≠ h) :
    blookup (updateBinding l h b) h' = blookup l h' := by
  induction l with
  | nil => rfl
  | cons p t ih =>
    rw [updateBinding_cons]
    by_cases hp : p.1 = h
    · rw [if_pos hp, blookup_cons, blookup_cons]
      have hq : p.1 ≠ h' := by rw [hp]; exact fun he => hne he.symm
      rw [if_neg hq, if_neg hq, ih]
    · rw [if_neg hp, blookup_cons, blookup_cons]
      by_cases hq : p.1 = h'
      · rw [if_pos hq, if_pos hq]
      · rw [if_neg hq, if_neg hq, ih]

theorem mem_updateBinding_self {l : List (Nat × Nat)} {h b0 : Nat}
    (hm : (h, b0) ∈ l) (b : Nat) :
    (h, b) ∈ updateBinding l h b := by
  refine List.mem_map.mpr ⟨(h, b0), hm, ?_⟩
  simp

theorem mem_updateBinding_ne {l : List (Nat × Nat)} {p : Nat × Nat} {h : Nat}
    (hm : p ∈ l) (hne : p.1 ≠ h) (b : Nat) :
    p ∈ updateBinding l h b := by
  refine List.mem_map.mpr ⟨p, hm, ?_⟩
  simp [hne]

theorem runs_nodup {l : List Run} (hd : l.Pairwise RunDisj)
    (hw : ∀ r ∈ l, 1 ≤ r.width) : l.Nodup := by
  refine List.Pairwise.imp_of_mem ?_ hd
  intro a b ha hb hab
  intro he
  subst he
  have := hw a ha
  rcases hab with h | h <;> omega

theorem cross_disj {L F : List Run} (hd : (L ++ F).Pairwise RunDisj) :
    ∀ x ∈ L, ∀ y ∈ F, RunDisj x y :=
  (List.pairwise_append.mp hd).2.2

theorem pairwise_left {L F : List Run} (hd : (L ++ F).Pairwise RunDisj) :
    L.Pairwise RunDisj :=
  (List.pairwise_append.mp hd).1

theorem inRuns_subset {l l' : List Run} (hs : l ⊆ l') {i : Nat} (h : inRuns l i) :
    inRuns l' i := by
  obtain ⟨r, hr, hx⟩ := h
  exact ⟨r, hs hr, hx⟩

theorem keys_not_mem {l : List (Nat × Nat)} {h : Nat} (hl : blookup l h = none) :
    h ∉ l.map Prod.fst := by
  intro hm
  obtain ⟨p, hp, hph⟩ := List.mem_map.mp hm
  have hpe : p = (h, p.2) := by
    rw [← hph]
  exact blookup_eq_none hl p.2 (hpe ▸ hp)

theorem key_unique {l : List (Nat × Nat)} (hnd : (l.map Prod.fst).Nodup)
    {h b1 b2 : Nat} (h1 : (h, b1) ∈ l) (h2 : (h, b2) ∈ l) : b1 = b2 := by
  have e1 := blookup_of_mem_nodup hnd h1
  have e2 := blookup_of_mem_nodup hnd h2
  rw [e1] at e2
  exact Option.some.inj e2

theorem removeKey_sublist (l : List (Nat × Nat)) (h : Nat) :
    List.Sublist (removeKey l h) l := by
  induction l with
  | nil => exact List.Sublist.refl []
  | cons p t ih =>
    rw [removeKey_cons]
    by_cases hp : p.1 = h
    · rw [if_pos hp]
      exact List.Sublist.cons p ih
    · rw [if_neg hp]
      exact List.Sublist.cons₂ p ih

theorem mem_removeKey_of_ne {l : List (Nat × Nat)} {p : Nat × Nat} {h : Nat}
    (hm : p ∈ l) (hne : p.1 ≠ h) : p ∈ removeKey l h := by
  induction l with
  | nil => cases hm
  | cons q t ih =>
    rw [removeKey_cons]
    rcases List.mem_cons.mp hm with he | ht
    · subst he
      rw [if_neg hne]
      exact List.mem_cons_self p _
    · by_cases hq : q.1 = h
      · rw [if_pos hq]
        exact ih ht
      · rw [if_neg hq]
        exact List.mem_cons.mpr (Or.inr (ih ht))

theorem fst_ne_of_mem_removeKey {l : List (Nat × Nat)} {p : Nat × Nat} {h : Nat}
    (hm : p ∈ removeKey l h) : p.1 ≠ h := by
  induction l with
  | nil => cases hm
  | cons q t ih =>
    rw [removeKey_cons] at hm
    by_cases hq : q.1 = h
    · rw [if_pos hq] at hm
      exact ih hm
    · rw [if_neg hq] at hm
      rcases List.mem_cons.mp hm with he | ht
      · exact he ▸ hq
      · exact ih ht

theorem getD_resize_lt {α : Type} (l : List α) (n i : Nat) (d dd : α)
    (h1 : i < n) (h2 : i < l.length) : (resize l n d).getD i dd = l.getD i dd := by
  rw [List.getD_eq_getElem?_getD, List.getD_eq_getElem?_getD,
    getElem?_resize_lt _ _ _ _ h1 h2]

theorem getD_resize_new {α : Type} (l : List α) (n i : Nat) (d : α)
    (h1 : i < n) (h2 : l.length ≤ i) : (resize l n d).getD i d = d := by
  rw [List.getD_eq_getElem?_getD, getElem?_resize_new _ _ _ _ h1 h2]
  rfl

theorem getD_sliceWrite_outside {α : Type} (vs l : List α) (b i : Nat) (d : α)
    (h : i < b ∨ b + vs.length ≤ i) : (sliceWrite l b vs).getD i d = l.getD i d := by
  rw [List.getD_eq_getElem?_getD, List.getD_eq_getElem?_getD]
  rcases h with h | h
  · rw [getElem?_sliceWrite_lt vs l b i h]
  · rw [getElem?_sliceWrite_ge vs l b i h]

/-- Unpack `Inv` and the liveness of a base into the facts most proofs use:
the run, its back-pointer handle, its binding entry, and the range bounds. -/
theorem inv_base_facts {s : Sys} (hInv : Inv s) {b : Nat}
    (hb : ∃ r ∈ s.alloc.live, r.base = b) :
    ∃ r ∈ s.alloc.live, r.base = b ∧ b + r.width ≤ s.alloc.num ∧ 1 ≤ r.width ∧
      ∃ h1, s.mot.getD b none = some h1 ∧ (h1, b) ∈ s.bindings := by
  obtain ⟨-, -, -, hbnd, hwp, -, hown, -, -, hnd⟩ := hInv
  obtain ⟨r, hr, hrb⟩ := hb
  obtain ⟨p, hp, hpb, hpm⟩ := hown r hr
  subst hrb
  refine ⟨r, hr, rfl, hbnd r (List.mem_append.mpr (Or.inl hr)),
    hwp r (List.mem_append.mpr (Or.inl hr)), p.1, hpm, ?_⟩
  have hpe : p = (p.1, r.base) := by
    rw [← hpb]
  exact hpe ▸ hp

/-- Two distinct live runs have distinct bases (they are disjoint and of
positive width). -/
theorem live_bases_ne {s : Sys} (hInv : Inv s) {x y : Run}
    (hx : x ∈ s.alloc.live) (hy : y ∈ s.alloc.live) (hne : x ≠ y) :
    x.base ≠ y.base := by
  obtain ⟨-, -, hdisj, -, hwp, -⟩ := hInv
  have hd := List.Pairwise.forall runDisj_symm (pairwise_left hdisj) hx hy hne
  have hwx := hwp x (List.mem_append.mpr (Or.inl hx))
  have hwy := hwp y (List.mem_append.mpr (Or.inl hy))
  rcases hd with h | h <;> omega

/-- `Inv` is preserved by a valid `TransferMotivator`. -/
theorem inv_transfer {s : Sys} (hInv : Inv s) {b h2 : Nat}
    (hb : ∃ r ∈ s.alloc.live, r.base = b)
    (hh2 : blookup s.bindings h2 = none) :
    Inv (transferMotivator s b h2) := by
  obtain ⟨r, hr, hrb, hbn, hwr, h1, hmot, hent⟩ := inv_base_facts hInv hb
  obtain ⟨hml, hdl, hdisj, hbnd, hwp, hcov, hown, hnnb, hbe, hnd⟩ := hInv
  have hblen : b < s.mot.length := by omega
  have hmot' : (transferMotivator s b h2).mot = s.mot.set b (some h2) := rfl
  have hbind' : (transferMotivator s b h2).bindings =
      (h2, b) :: removeKey s.bindings h1 := by
    show (match s.mot.getD b none with
      | some h0 => (h2, b) :: removeKey s.bindings h0
      | none => (h2, b) :: s.bindings) = _
    rw [hmot]
  have hmlen : (transferMotivator s b h2).mot.length = (transferMotivator s b h2).alloc.num := by
    show (s.mot.set b (some h2)).length = s.alloc.num
    simpa using hml
  refine ⟨hmlen, hdl, hdisj, hbnd, hwp, hcov, ?_, ?_, ?_, ?_⟩
  · -- owner
    intro x hx
    unfold ownerOk
    rw [hbind', hmot']
    by_cases hxb : x.base = b
    · refine ⟨(h2, b), List.mem_cons_self _ _, hxb.symm, ?_⟩
      rw [hxb]
      exact getD_set_self (some h2) none hblen
    · obtain ⟨p, hp, hpb, hpm⟩ := hown x hx
      have hp1 : p.1 ≠ h1 := by
        intro he
        have hpe : p = (h1, x.base) := by
          cases p
          simp only [Prod.mk.injEq] at hpb ⊢
          exact ⟨he, hpb⟩
        exact hxb (key_unique hnd (hpe ▸ hp) hent)
      refine ⟨p, List.mem_cons.mpr (Or.inr (mem_removeKey_of_ne hp hp1)), hpb, ?_⟩
      rw [getD_set_ne (some h2) none fun he => hxb he.symm]
      exact hpm
  · -- nullNonBase
    intro i hi hnb
    rw [hmot', getD_set_ne (some h2) none ?_]
    · exact hnnb i hi fun hlb => hnb hlb
    · intro he
      subst he
      exact hnb ⟨r, hr, hrb⟩
  · -- bindEntries
    intro p hp
    rw [hbind'] at hp
    rw [hmot']
    rcases List.mem_cons.mp hp with he | ht
    · subst he
      refine ⟨⟨r, hr, hrb⟩, ?_⟩
      exact getD_set_self (some h2) none hblen
    · have hpm := (removeKey_sublist s.bindings h1).subset ht
      obtain ⟨hlb, hge⟩ := hbe p hpm
      have hp2 : p.2 ≠ b := by
        intro he
        rw [he, hmot] at hge
        exact fst_ne_of_mem_removeKey ht (Option.some.inj hge).symm
      refine ⟨hlb, ?_⟩
      rw [getD_set_ne (some h2) none fun he => hp2 he.symm]
      exact hge
  · -- keysNodup
    rw [hbind', List.map_cons, List.nodup_cons]
    constructor
    · intro hm
      exact keys_not_mem hh2 (((removeKey_sublist s.bindings h1).map Prod.fst).subset hm)
    · exact hnd.sublist ((removeKey_sublist s.bindings h1).map Prod.fst)

/-- `Inv` is preserved by a valid `RemoveMotivator`. -/
theorem inv_remove {s : Sys} (hInv : Inv s) {b : Nat}
    (hb : ∃ r ∈ s.alloc.live, r.base = b) :
    Inv (removeMotivator s b) := by
  obtain ⟨r, hr, hrb, hbn, hwr, h1, hmot, hent⟩ := inv_base_facts hInv hb
  have hInv' := hInv
  obtain ⟨hml, hdl, hdisj, hbnd, hwp, hcov, hown, hnnb, hbe, hnd⟩ := hInv'
  have hlivewp : ∀ x ∈ s.alloc.live, 1 ≤ x.width :=
    fun x hx => hwp x (List.mem_append.mpr (Or.inl hx))
  have hndl : s.alloc.live.Nodup := runs_nodup (pairwise_left hdisj) hlivewp
  have hfind : s.alloc.live.find? (fun x => x.base == b) = some r := by
    have := find?_base_self (pairwise_left hdisj) hlivewp hr
    rwa [hrb] at this
  have hlive' : (removeMotivator s b).alloc.live = s.alloc.live.erase r := by
    show (freeRun s.alloc b).live = _
    unfold freeRun
    rw [hfind]
  have hfree' : (removeMotivator s b).alloc.free = r :: s.alloc.free := by
    show (freeRun s.alloc b).free = _
    unfold freeRun
    rw [hfind]
  have hnum' : (removeMotivator s b).alloc.num = s.alloc.num := by
    show (freeRun s.alloc b).num = _
    unfold freeRun
    rw [hfind]
  have hmot' : (removeMotivator s b).mot = s.mot.set b none := rfl
  have hbind' : (removeMotivator s b).bindings = removeKey s.bindings h1 := by
    show (match s.mot.getD b none with
      | some h => removeKey s.bindings h
      | none => s.bindings) = _
    rw [hmot]
  have hperm : List.Perm (s.alloc.live ++ s.alloc.free)
      (s.alloc.live.erase r ++ (r :: s.alloc.free)) :=
    List.Perm.trans ((List.perm_cons_erase hr).append_right _) List.perm_middle.symm
  have hblen : b < s.mot.length := by omega
  refine ⟨?_, ?_, ?_, ?_, ?_, ?_, ?_, ?_, ?_, ?_⟩
  · rw [hmot', hnum']
    simpa using hml
  · rw [hnum']
    exact hdl
  · rw [hlive', hfree']
    exact (hperm.pairwise_iff fun hxy => runDisj_symm hxy).mp hdisj
  · intro x hx
    rw [hlive', hfree'] at hx
    rw [hnum']
    exact hbnd x (hperm.symm.subset hx)
  · intro x hx
    rw [hlive', hfree'] at hx
    exact hwp x (hperm.symm.subset hx)
  · intro i hi
    rw [hnum'] at hi
    rw [hlive', hfree']
    exact inRuns_subset hperm.subset (hcov i hi)
  · -- owner
    intro x hx
    rw [hlive'] at hx
    have hxl : x ∈ s.alloc.live := List.mem_of_mem_erase hx
    have hxr : x ≠ r := (hndl.mem_erase_iff.mp hx).1
    have hxb : x.base ≠ b := by
      rw [← hrb]
      exact live_bases_ne hInv hxl hr hxr
    obtain ⟨p, hp, hpb, hpm⟩ := hown x hxl
    have hp1 : p.1 ≠ h1 := by
      intro he
      have hpe : p = (h1, x.base) := by
        rw [← he, ← hpb]
      exact hxb (key_unique hnd (hpe ▸ hp) hent)
    unfold ownerOk
    rw [hbind', hmot']
    refine ⟨p, mem_removeKey_of_ne hp hp1, hpb, ?_⟩
    rw [getD_set_ne none none fun he => hxb he.symm]
    exact hpm
  · -- nullNonBase
    intro i hi hnb
    rw [hnum'] at hi
    rw [hmot']
    by_cases hib : i = b
    · subst hib
      exact getD_set_self none none hblen
    · rw [getD_set_ne none none fun he => hib he.symm]
      refine hnnb i hi ?_
      rintro ⟨y, hy, hyb⟩
      have hyr : y ≠ r := by
        intro he
        subst he
        exact hib (hyb ▸ hrb.symm).symm
      refine hnb ⟨y, ?_, hyb⟩
      rw [hlive']
      exact (List.mem_erase_of_ne hyr).mpr hy
  · -- bindEntries
    intro q hq
    rw [hbind'] at hq
    have hqm := (removeKey_sublist s.bindings h1).subset hq
    have hq1 := fst_ne_of_mem_removeKey hq
    obtain ⟨hlb, hge⟩ := hbe q hqm
    obtain ⟨y, hy, hyb⟩ := hlb
    have hyr : y ≠ r := by
      intro he
      subst he
      rw [← hyb, hrb, hmot] at hge
      exact hq1 (Option.some.inj hge).symm
    have hq2 : q.2 ≠ b := by
      rw [← hyb, ← hrb]
      exact live_bases_ne hInv hy hr hyr
    constructor
    · refine ⟨y, ?_, hyb⟩
      rw [hlive']
      exact (List.mem_erase_of_ne hyr).mpr hy
    · rw [hmot', getD_set_ne none none fun he => hq2 he.symm]
      exact hge
  · rw [hbind']
    exact hnd.sublist ((removeKey_sublist s.bindings h1).map Prod.fst)

/-- `Inv` is preserved by a valid `InitializeMotivator` (fresh handle,
positive width). -/
theorem inv_init {s : Sys} (hInv : Inv s) {h w : Nat} (vals : List Int)
    (hw : 1 ≤ w) (hh : blookup s.bindings h = none) :
    Inv (initMotivator s h w vals) := by
  have hInv' := hInv
  obtain ⟨hml, hdl, hdisj, hbnd, hwp, hcov, hown, hnnb, hbe, hnd⟩ := hInv'
  have hkeys : h ∉ s.bindings.map Prod.fst := keys_not_mem hh
  cases hfind : s.alloc.free.find? (fun r => r.width == w) with
  | some r =>
    have hrf : r ∈ s.alloc.free := List.mem_of_find?_eq_some hfind
    have hrw : r.width = w := by simpa using List.find?_some hfind
    have ha : allocate s.alloc w =
        ({ live := r :: s.alloc.live, free := s.alloc.free.erase r, num := s.alloc.num },
          r.base, []) := by
      unfold allocate
      rw [hfind]
    have hbr : r.base + w ≤ s.alloc.num := by
      have := hbnd r (List.mem_append.mpr (Or.inr hrf))
      omega
    have hblen : r.base < s.mot.length := by omega
    have hlive' : (initMotivator s h w vals).alloc.live = r :: s.alloc.live := by
      show (allocate s.alloc w).1.live = _
      rw [ha]
    have hfree' : (initMotivator s h w vals).alloc.free = s.alloc.free.erase r := by
      show (allocate s.alloc w).1.free = _
      rw [ha]
    have hnum' : (initMotivator s h w vals).alloc.num = s.alloc.num := by
      show (allocate s.alloc w).1.num = _
      rw [ha]
    have hmote : (initMotivator s h w vals).mot = s.mot.set r.base (some h) := by
      show (resize s.mot (allocate s.alloc w).1.num none).set
        (allocate s.alloc w).2.1 (some h) = _
      rw [ha]
      show (resize s.mot s.alloc.num none).set r.base (some h) = _
      rw [← hml, resize_eq_self]
    have hdatae : (initMotivator s h w vals).data =
        sliceWrite s.data r.base (padTo w vals) := by
      show sliceWrite (resize s.data (allocate s.alloc w).1.num 0)
        (allocate s.alloc w).2.1 (padTo w vals) = _
      rw [ha]
      show sliceWrite (resize s.data s.alloc.num 0) r.base (padTo w vals) = _
      rw [← hdl, resize_eq_self]
    have hbinde : (initMotivator s h w vals).bindings = (h, r.base) :: s.bindings := by
      show (h, (allocate s.alloc w).2.1) :: s.bindings = _
      rw [ha]
    have hperm : List.Perm (s.alloc.live ++ s.alloc.free)
        ((r :: s.alloc.live) ++ s.alloc.free.erase r) :=
      (List.Perm.append_left s.alloc.live (List.perm_cons_erase hrf)).trans
        List.perm_middle
    have hbasene : ∀ x ∈ s.alloc.live, x.base ≠ r.base := by
      intro x hx
      have hd := cross_disj hdisj x hx r hrf
      have hwx := hwp x (List.mem_append.mpr (Or.inl hx))
      rcases hd with hc | hc <;> omega
    refine ⟨?_, ?_, ?_, ?_, ?_, ?_, ?_, ?_, ?_, ?_⟩
    · rw [hmote, hnum']
      simpa using hml
    · rw [hdatae, hnum', sliceWrite_length]
      exact hdl
    · rw [hlive', hfree']
      exact (hperm.pairwise_iff fun hxy => runDisj_symm hxy).mp hdisj
    · intro x hx
      rw [hlive', hfree'] at hx
      rw [hnum']
      exact hbnd x (hperm.symm.subset hx)
    · intro x hx
      rw [hlive', hfree'] at hx
      exact hwp x (hperm.symm.subset hx)
    · intro i hi
      rw [hnum'] at hi
      rw [hlive', hfree']
      exact inRuns_subset hperm.subset (hcov i hi)
    · intro x hx
      rw [hlive'] at hx
      unfold ownerOk
      rw [hbinde, hmote]
      rcases List.mem_cons.mp hx with he | hxl
      · subst he
        exact ⟨(h, x.base), List.mem_cons_self _ _, rfl,
          getD_set_self (some h) none hblen⟩
      · obtain ⟨p, hp, hpb, hpm⟩ := hown x hxl
        refine ⟨p, List.mem_cons.mpr (Or.inr hp), hpb, ?_⟩
        rw [getD_set_ne (some h) none fun he => hbasene x hxl he.symm]
        exact hpm
    · intro i hi hnb
      rw [hnum'] at hi
      rw [hmote]
      have hir : i ≠ r.base := by
        intro he
        refine hnb ⟨r, ?_, he.symm⟩
        rw [hlive']
        exact List.mem_cons_self r _
      rw [getD_set_ne (some h) none fun he => hir he.symm]
      refine hnnb i hi ?_
      rintro ⟨y, hy, hyb⟩
      refine hnb ⟨y, ?_, hyb⟩
      rw [hlive']
      exact List.mem_cons.mpr (Or.inr hy)
    · intro q hq
      rw [hbinde] at hq
      rw [hmote]
      rcases List.mem_cons.mp hq with he | ht
      · subst he
        refine ⟨⟨r, ?_, rfl⟩, getD_set_self (some h) none hblen⟩
        rw [hlive']
        exact List.mem_cons_self r _
      · obtain ⟨hlb, hge⟩ := hbe q ht
        obtain ⟨y, hy, hyb⟩ := hlb
        refine ⟨⟨y, ?_, hyb⟩, ?_⟩
        · rw [hlive']
          exact List.mem_cons.mpr (Or.inr hy)
        · rw [getD_set_ne (some h) none ?_]
          · exact hge
          · rw [← hyb]
            exact fun he => hbasene y hy he.symm
    · rw [hbinde, List.map_cons, List.nodup_cons]
      exact ⟨hkeys, hnd⟩
  | none =>
    have ha : allocate s.alloc w =
        ({ live := Run.mk s.alloc.num w :: s.alloc.live, free := s.alloc.free,
            num := s.alloc.num + w },
          s.alloc.num, [AllocEvent.setNumIndices (s.alloc.num + w)]) := by
      unfold allocate
      rw [hfind]
    have hlive' : (initMotivator s h w vals).alloc.live =
        Run.mk s.alloc.num w :: s.alloc.live := by
      show (allocate s.alloc w).1.live = _
      rw [ha]
    have hfree' : (initMotivator s h w vals).alloc.free = s.alloc.free := by
      show (allocate s.alloc w).1.free = _
      rw [ha]
    have hnum' : (initMotivator s h w vals).alloc.num = s.alloc.num + w := by
      show (allocate s.alloc w).1.num = _
      rw [ha]
    have hmote : (initMotivator s h w vals).mot =
        (resize s.mot (s.alloc.num + w) none).set s.alloc.num (some h) := by
      show (resize s.mot (allocate s.alloc w).1.num none).set
        (allocate s.alloc w).2.1 (some h) = _
      rw [ha]
    have hdatae : (initMotivator s h w vals).data =
        sliceWrite (resize s.data (s.alloc.num + w) 0) s.alloc.num (padTo w vals) := by
      show sliceWrite (resize s.data (allocate s.alloc w).1.num 0)
        (allocate s.alloc w).2.1 (padTo w vals) = _
      rw [ha]
    have hbinde : (initMotivator s h w vals).bindings =
        (h, s.alloc.num) :: s.bindings := by
      show (h, (allocate s.alloc w).2.1) :: s.bindings = _
      rw [ha]
    have hreslen : (resize s.mot (s.alloc.num + w) none).length = s.alloc.num + w :=
      resize_length s.mot (s.alloc.num + w) none
    have hgetnr : ((resize s.mot (s.alloc.num + w) none).set s.alloc.num
        (some h)).getD s.alloc.num none = some h := by
      apply getD_set_self
      omega
    have hgetold : ∀ i, i < s.alloc.num →
        ((resize s.mot (s.alloc.num + w) none).set s.alloc.num
          (some h)).getD i none = s.mot.getD i none := by
      intro i hi
      rw [getD_set_ne (some h) none (by omega), getD_resize_lt _ _ _ _ none
        (by omega) (by omega)]
    refine ⟨?_, ?_, ?_, ?_, ?_, ?_, ?_, ?_, ?_, ?_⟩
    · rw [hmote, hnum']
      simpa using hreslen
    · rw [hdatae, hnum', sliceWrite_length, resize_length]
    · rw [hlive', hfree']
      show List.Pairwise RunDisj
        (Run.mk s.alloc.num w :: (s.alloc.live ++ s.alloc.free))
      rw [List.pairwise_cons]
      refine ⟨fun x hx => Or.inr ?_, hdisj⟩
      show x.base + x.width ≤ s.alloc.num
      exact hbnd x hx
    · intro x hx
      rw [hlive', hfree'] at hx
      rw [hnum']
      rcases List.mem_cons.mp hx with he | hxo
      · subst he
        show s.alloc.num + w ≤ s.alloc.num + w
        exact Nat.le_refl _
      · have := hbnd x hxo
        omega
    · intro x hx
      rw [hlive', hfree'] at hx
      rcases List.mem_cons.mp hx with he | hxo
      · subst he
        exact hw
      · exact hwp x hxo
    · intro i hi
      rw [hnum'] at hi
      rw [hlive', hfree']
      by_cases hio : i < s.alloc.num
      · exact inRuns_subset (fun x hx => List.mem_cons.mpr (Or.inr hx)) (hcov i hio)
      · refine ⟨Run.mk s.alloc.num w, List.mem_cons_self _ _, ?_, ?_⟩
        · show s.alloc.num ≤ i
          omega
        · show i < s.alloc.num + w
          omega
    · intro x hx
      rw [hlive'] at hx
      unfold ownerOk
      rw [hbinde, hmote]
      rcases List.mem_cons.mp hx with he | hxl
      · subst he
        exact ⟨(h, s.alloc.num), List.mem_cons_self _ _, rfl, hgetnr⟩
      · obtain ⟨p, hp, hpb, hpm⟩ := hown x hxl
        have hxn : x.base < s.alloc.num := by
          have h1 := hbnd x (List.mem_append.mpr (Or.inl hxl))
          have h2 := hwp x (List.mem_append.mpr (Or.inl hxl))
          omega
        refine ⟨p, List.mem_cons.mpr (Or.inr hp), hpb, ?_⟩
        rw [hgetold x.base hxn]
        exact hpm
    · intro i hi hnb
      rw [hnum'] at hi
      rw [hmote]
      have hin : i ≠ s.alloc.num := by
        intro he
        refine hnb ⟨Run.mk s.alloc.num w, ?_, he.symm⟩
        rw [hlive']
        exact List.mem_cons_self _ _
      by_cases hio : i < s.alloc.num
      · rw [hgetold i hio]
        refine hnnb i hio ?_
        rintro ⟨y, hy, hyb⟩
        refine hnb ⟨y, ?_, hyb⟩
        rw [hlive']
        exact List.mem_cons.mpr (Or.inr hy)
      · rw [getD_set_ne (some h) none fun he => hin he.symm,
          getD_resize_new _ _ _ _ (by omega) (by omega)]
    · intro q hq
      rw [hbinde] at hq
      rw [hmote]
      rcases List.mem_cons.mp hq with he | ht
      · subst he
        refine ⟨⟨Run.mk s.alloc.num w, ?_, rfl⟩, hgetnr⟩
        rw [hlive']
        exact List.mem_cons_self _ _
      · obtain ⟨hlb, hge⟩ := hbe q ht
        obtain ⟨y, hy, hyb⟩ := hlb
        have hyn : y.base < s.alloc.num := by
          have h1 := hbnd y (List.mem_append.mpr (Or.inl hy))
          have h2 := hwp y (List.mem_append.mpr (Or.inl hy))
          omega
        refine ⟨⟨y, ?_, hyb⟩, ?_⟩
        · rw [hlive']
          exact List.mem_cons.mpr (Or.inr hy)
        · rw [← hyb, hgetold y.base hyn, hyb]
          exact hge
    · rw [hbinde, List.map_cons, List.nodup_cons]
      exact ⟨hkeys, hnd⟩

theorem pairwise_right {L F : List Run} (hd : (L ++ F).Pairwise RunDisj) :
    F.Pairwise RunDisj :=
  (List.pairwise_append.mp hd).2.1

theorem runDisj_mono {z y x : Run} (hd : RunDisj y x) (h1 : y.base ≤ z.base)
    (h2 : z.base + z.width ≤ y.base + y.width) : RunDisj z x := by
  rcases hd with h | h
  · exact Or.inl (by omega)
  · exact Or.inr (by omega)

theorem bases_ne {x y : Run} (hd : RunDisj x y) (hwx : 1 ≤ x.width)
    (hwy : 1 ≤ y.width) : x.base ≠ y.base := by
  rcases hd with h | h <;> omega

theorem maxEnd_argmax {l : List Run} {ar : Run} (hd : l.Pairwise RunDisj)
    (hw : ∀ r ∈ l, 1 ≤ r.width) (hmax : l.argmax Run.base = some ar) :
    maxEnd l = ar.base + ar.width := by
  have hmem : ar ∈ l := List.argmax_mem hmax
  refine Nat.le_antisymm (maxEnd_le ?_) (le_maxEnd hmem)
  intro r hr
  by_cases hre : r = ar
  · subst hre
    exact Nat.le_refl _
  · have hble : r.base ≤ ar.base := List.le_of_mem_argmax hr hmax
    have hdisj := List.Pairwise.forall runDisj_symm hd hr hmem hre
    have hwa := hw ar hmem
    rcases hdisj with h | h <;> omega

/-- `Inv` implies the loop invariant `LInv` (full coverage restricts to
coverage below the highest live end). -/
theorem inv_to_linv {s : Sys} (hInv : Inv s) : LInv s := by
  obtain ⟨hml, hdl, hdisj, hbnd, hwp, hcov, hown, hnnb, hbe, hnd⟩ := hInv
  refine ⟨hml, hdl, hdisj, hbnd, hwp, ?_, hown, hnnb, hbe, hnd⟩
  intro i hi
  refine hcov i (lt_of_lt_of_le hi ?_)
  exact maxEnd_le fun r hr => hbnd r (List.mem_append.mpr (Or.inl hr))

/-- Inversion of one executed defragmentation step. -/
theorem defragStep_elim {s s' : Sys} (hstep : defragStep? s = some s') :
    ∃ fr ar, s.alloc.free.argmin Run.base = some fr ∧
      s.alloc.live.argmax Run.base = some ar ∧
      fr.base + fr.width ≤ ar.base ∧ ar.width ≤ fr.width ∧ s' = moveRun s ar fr := by
  unfold defragStep? at hstep
  cases hmin : s.alloc.free.argmin Run.base with
  | none =>
    rw [hmin] at hstep
    cases hstep
  | some fr =>
    rw [hmin] at hstep
    cases hmax : s.alloc.live.argmax Run.base with
    | none =>
      rw [hmax] at hstep
      cases hstep
    | some ar =>
      rw [hmax] at hstep
      have hstep' : (if fr.base + fr.width ≤ ar.base ∧ ar.width ≤ fr.width then
          some (moveRun s ar fr) else none) = some s' := hstep
      by_cases hc : fr.base + fr.width ≤ ar.base ∧ ar.width ≤ fr.width
      · rw [if_pos hc] at hstep'
        exact ⟨fr, ar, rfl, rfl, hc.1, hc.2, (Option.some.inj hstep').symm⟩
      · rw [if_neg hc] at hstep'
        cases hstep'

/-- The heart of `Defragment`: one relocation step preserves the loop
invariant, preserves every bound handle's run and data, keeps widths uniform,
strictly shrinks the total free width, and leaves the high-water mark
alone. -/
theorem moveRun_props {s : Sys} (hL : LInv s) {fr ar : Run}
    (hmin : s.alloc.free.argmin Run.base = some fr)
    (hmax : s.alloc.live.argmax Run.base = some ar)
    (hbelow : fr.base + fr.width ≤ ar.base) (hfits : ar.width ≤ fr.width) :
    LInv (moveRun s ar fr) ∧ PreservesRuns s (moveRun s ar fr) ∧
    (∀ w, Uniform w s → Uniform w (moveRun s ar fr)) ∧
    sumW (moveRun s ar fr).alloc.free + 1 ≤ sumW s.alloc.free ∧
    (moveRun s ar fr).alloc.num = s.alloc.num := by
  obtain ⟨hml, hdl, hdisj, hbnd, hwp, hcovb, hown, hnnb, hbe, hnd⟩ := hL
  have hfr : fr ∈ s.alloc.free := List.argmin_mem hmin
  have har : ar ∈ s.alloc.live := List.argmax_mem hmax
  have hwfr : 1 ≤ fr.width := hwp fr (List.mem_append.mpr (Or.inr hfr))
  have hwar : 1 ≤ ar.width := hwp ar (List.mem_append.mpr (Or.inl har))
  have hbfr : fr.base + fr.width ≤ s.alloc.num :=
    hbnd fr (List.mem_append.mpr (Or.inr hfr))
  have hbar : ar.base + ar.width ≤ s.alloc.num :=
    hbnd ar (List.mem_append.mpr (Or.inl har))
  have hlivewp : ∀ x ∈ s.alloc.live, 1 ≤ x.width :=
    fun x hx => hwp x (List.mem_append.mpr (Or.inl hx))
  have hfreewp : ∀ x ∈ s.alloc.free, 1 ≤ x.width :=
    fun x hx => hwp x (List.mem_append.mpr (Or.inr hx))
  have hndlive : s.alloc.live.Nodup := runs_nodup (pairwise_left hdisj) hlivewp
  have hndfree : s.alloc.free.Nodup := runs_nodup (pairwise_right hdisj) hfreewp
  obtain ⟨pA, hpA, hpAb, hpAm⟩ := hown ar har
  have hentA : (pA.1, ar.base) ∈ s.bindings := by
    have hpe : pA = (pA.1, ar.base) := by rw [← hpAb]
    exact hpe ▸ hpA
  have hmotA : s.mot.getD ar.base none = some pA.1 := hpAm
  have hlive' : (moveRun s ar fr).alloc.live =
      Run.mk fr.base ar.width :: s.alloc.live.erase ar := rfl
  have hfree' : (moveRun s ar fr).alloc.free =
      if ar.width < fr.width then
        Run.mk (fr.base + ar.width) (fr.width - ar.width) :: s.alloc.free.erase fr
      else s.alloc.free.erase fr := rfl
  have hnum' : (moveRun s ar fr).alloc.num = s.alloc.num := rfl
  have hmote : (moveRun s ar fr).mot =
      (s.mot.set fr.base (some pA.1)).set ar.base none := by
    show (s.mot.set fr.base (s.mot.getD ar.base none)).set ar.base none = _
    rw [hmotA]
  have hdatae : (moveRun s ar fr).data =
      sliceWrite s.data fr.base (slice s.data ar.base ar.width) := rfl
  have hbinde : (moveRun s ar fr).bindings =
      updateBinding s.bindings pA.1 fr.base := by
    show (match s.mot.getD ar.base none with
      | some hh => updateBinding s.bindings hh fr.base
      | none => s.bindings) = _
    rw [hmotA]
  have hfa : fr.base < ar.base := by omega
  have hfrlen : fr.base < s.mot.length := by omega
  have harlen : ar.base < s.mot.length := by omega
  have hget_fr : (moveRun s ar fr).mot.getD fr.base none = some pA.1 := by
    rw [hmote, getD_set_ne none none (by omega),
      getD_set_self (some pA.1) none hfrlen]
  have hget_ar : (moveRun s ar fr).mot.getD ar.base none = none := by
    rw [hmote]
    apply getD_set_self
    simpa using harlen
  have hget_other : ∀ i, i ≠ fr.base → i ≠ ar.base →
      (moveRun s ar fr).mot.getD i none = s.mot.getD i none := by
    intro i h1 h2
    rw [hmote, getD_set_ne none none fun he => h2 he.symm,
      getD_set_ne (some pA.1) none fun he => h1 he.symm]
  have h_live_end : ∀ x ∈ s.alloc.live, x ≠ ar → x.base + x.width ≤ ar.base := by
    intro x hx hne
    have hble : x.base ≤ ar.base := List.le_of_mem_argmax hx hmax
    have hdd := List.Pairwise.forall runDisj_symm (pairwise_left hdisj) hx har hne
    rcases hdd with h | h <;> omega
  have hnr_sub : ∀ x, RunDisj fr x → RunDisj (Run.mk fr.base ar.width) x := by
    intro x hd
    refine runDisj_mono hd ?_ ?_
    · show fr.base ≤ fr.base
      exact Nat.le_refl _
    · show fr.base + ar.width ≤ fr.base + fr.width
      omega
  have hlo_sub : ∀ x, RunDisj fr x →
      RunDisj (Run.mk (fr.base + ar.width) (fr.width - ar.width)) x := by
    intro x hd
    refine runDisj_mono hd ?_ ?_
    · show fr.base ≤ fr.base + ar.width
      omega
    · show fr.base + ar.width + (fr.width - ar.width) ≤ fr.base + fr.width
      omega
  have hdisj_fr_live : ∀ x ∈ s.alloc.live, RunDisj fr x :=
    fun x hx => runDisj_symm (cross_disj hdisj x hx fr hfr)
  have hdisj_fr_free : ∀ x ∈ s.alloc.free.erase fr, RunDisj fr x := by
    intro x hx
    have hxm : x ∈ s.alloc.free := List.mem_of_mem_erase hx
    have hxne : x ≠ fr := (hndfree.mem_erase_iff.mp hx).1
    exact List.Pairwise.forall runDisj_symm (pairwise_right hdisj) hfr hxm
      fun he => hxne he.symm
  have hfree'_mem : ∀ y ∈ (moveRun s ar fr).alloc.free,
      y ∈ s.alloc.free.erase fr ∨
      (ar.width < fr.width ∧
        y = Run.mk (fr.base + ar.width) (fr.width - ar.width)) := by
    intro y hy
    rw [hfree'] at hy
    by_cases hlw : ar.width < fr.width
    · rw [if_pos hlw] at hy
      rcases List.mem_cons.mp hy with he | ht
      · exact Or.inr ⟨hlw, he⟩
      · exact Or.inl ht
    · rw [if_neg hlw] at hy
      exact Or.inl hy
  have hfree'_of_erase : ∀ y ∈ s.alloc.free.erase fr,
      y ∈ (moveRun s ar fr).alloc.free := by
    intro y hy
    rw [hfree']
    by_cases hlw : ar.width < fr.width
    · rw [if_pos hlw]
      exact List.mem_cons.mpr (Or.inr hy)
    · rw [if_neg hlw]
      exact hy
  have hfree'_lo : ar.width < fr.width →
      Run.mk (fr.base + ar.width) (fr.width - ar.width) ∈
        (moveRun s ar fr).alloc.free := by
    intro hlw
    rw [hfree', if_pos hlw]
    exact List.mem_cons_self _ _
  have hrest_fr : ∀ x, (x ∈ s.alloc.live.erase ar ∨ x ∈ s.alloc.free.erase fr) →
      RunDisj fr x := by
    intro x hx
    rcases hx with hx | hx
    · exact hdisj_fr_live x (List.mem_of_mem_erase hx)
    · exact hdisj_fr_free x hx
  have hpw_rest : (s.alloc.live.erase ar ++ s.alloc.free.erase fr).Pairwise RunDisj :=
    List.Pairwise.sublist (List.Sublist.append (List.erase_sublist ar s.alloc.live)
      (List.erase_sublist fr s.alloc.free)) hdisj
  have hLinv' : LInv (moveRun s ar fr) := by
    refine ⟨?_, ?_, ?_, ?_, ?_, ?_, ?_, ?_, ?_, ?_⟩
    · rw [hmote, hnum']
      simpa using hml
    · rw [hdatae, hnum', sliceWrite_length]
      exact hdl
    · -- pairwise disjointness
      show List.Pairwise RunDisj
        (((moveRun s ar fr).alloc.live) ++ ((moveRun s ar fr).alloc.free))
      rw [hlive']
      show List.Pairwise RunDisj
        (Run.mk fr.base ar.width ::
          (s.alloc.live.erase ar ++ (moveRun s ar fr).alloc.free))
      rw [List.pairwise_cons]
      constructor
      · intro x hx
        rcases List.mem_append.mp hx with hxl | hxf
        · exact hnr_sub x (hrest_fr x (Or.inl hxl))
        · rcases hfree'_mem x hxf with ht | ⟨hlw, he⟩
          · exact hnr_sub x (hrest_fr x (Or.inr ht))
          · subst he
            exact Or.inl (by show fr.base + ar.width ≤ fr.base + ar.width; omega)
      · by_cases hlw : ar.width < fr.width
        · rw [hfree', if_pos hlw]
          rw [List.pairwise_append]
          refine ⟨List.Pairwise.sublist (List.erase_sublist ar s.alloc.live)
            (pairwise_left hdisj), ?_, ?_⟩
          · rw [List.pairwise_cons]
            refine ⟨fun y hy => hlo_sub y (hdisj_fr_free y hy), ?_⟩
            exact List.Pairwise.sublist (List.erase_sublist fr s.alloc.free)
              (pairwise_right hdisj)
          · intro x hxl y hy
            rcases List.mem_cons.mp hy with he | ht
            · subst he
              exact runDisj_symm (hlo_sub x (hrest_fr x (Or.inl hxl)))
            · exact (List.pairwise_append.mp hpw_rest).2.2 x hxl y ht
        · rw [hfree', if_neg hlw]
          exact hpw_rest
    · intro x hx
      rw [hnum']
      rcases List.mem_append.mp hx with hxl | hxf
      · rw [hlive'] at hxl
        rcases List.mem_cons.mp hxl with he | ht
        · subst he
          show fr.base + ar.width ≤ s.alloc.num
          omega
        · exact hbnd x (List.mem_append.mpr (Or.inl (List.mem_of_mem_erase ht)))
      · rcases hfree'_mem x hxf with ht | ⟨hlw, he⟩
        · exact hbnd x (List.mem_append.mpr (Or.inr (List.mem_of_mem_erase ht)))
        · subst he
          show fr.base + ar.width + (fr.width - ar.width) ≤ s.alloc.num
          omega
    · intro x hx
      rcases List.mem_append.mp hx with hxl | hxf
      · rw [hlive'] at hxl
        rcases List.mem_cons.mp hxl with he | ht
        · subst he
          exact hwar
        · exact hwp x (List.mem_append.mpr (Or.inl (List.mem_of_mem_erase ht)))
      · rcases hfree'_mem x hxf with ht | ⟨hlw, he⟩
        · exact hwp x (List.mem_append.mpr (Or.inr (List.mem_of_mem_erase ht)))
        · subst he
          show 1 ≤ fr.width - ar.width
          omega
    · -- coverage below the (shrunken) highest live end
      intro i hi
      have hmaxle : maxEnd (moveRun s ar fr).alloc.live ≤ ar.base := by
        rw [hlive', maxEnd_cons]
        refine max_le (by show fr.base + ar.width ≤ ar.base; omega) (maxEnd_le ?_)
        intro x hx
        exact h_live_end x (List.mem_of_mem_erase hx) (hndlive.mem_erase_iff.mp hx).1
      have hmaxold : maxEnd s.alloc.live = ar.base + ar.width :=
        maxEnd_argmax (pairwise_left hdisj) hlivewp hmax
      have hia : i < ar.base := lt_of_lt_of_le hi hmaxle
      obtain ⟨r, hrm, hrlo, hrhi⟩ := hcovb i (by omega)
      rcases List.mem_append.mp hrm with hrl | hrf2
      · have hrne : r ≠ ar := by
          intro he
          subst he
          omega
        refine ⟨r, ?_, hrlo, hrhi⟩
        refine List.mem_append.mpr (Or.inl ?_)
        rw [hlive']
        exact List.mem_cons.mpr (Or.inr ((List.mem_erase_of_ne hrne).mpr hrl))
      · by_cases hrfr : r = fr
        · rw [hrfr] at hrlo hrhi
          by_cases hinr : i < fr.base + ar.width
          · refine ⟨Run.mk fr.base ar.width, ?_, ?_, ?_⟩
            · refine List.mem_append.mpr (Or.inl ?_)
              rw [hlive']
              exact List.mem_cons_self _ _
            · show fr.base ≤ i
              omega
            · show i < fr.base + ar.width
              omega
          · have hlw : ar.width < fr.width := by omega
            refine ⟨Run.mk (fr.base + ar.width) (fr.width - ar.width), ?_, ?_, ?_⟩
            · exact List.mem_append.mpr (Or.inr (hfree'_lo hlw))
            · show fr.base + ar.width ≤ i
              omega
            · show i < fr.base + ar.width + (fr.width - ar.width)
              omega
        · refine ⟨r, ?_, hrlo, hrhi⟩
          refine List.mem_append.mpr (Or.inr ?_)
          exact hfree'_of_erase r ((List.mem_erase_of_ne hrfr).mpr hrf2)
    · -- owner
      intro x hx
      rw [hlive'] at hx
      unfold ownerOk
      rw [hbinde]
      rcases List.mem_cons.mp hx with he | hxl
      · subst he
        exact ⟨(pA.1, fr.base), mem_updateBinding_self hentA fr.base, rfl, hget_fr⟩
      · have hxm : x ∈ s.alloc.live := List.mem_of_mem_erase hxl
        have hxne : x ≠ ar := (hndlive.mem_erase_iff.mp hxl).1
        have hxb_ar : x.base ≠ ar.base := by
          have hdd := List.Pairwise.forall runDisj_symm (pairwise_left hdisj)
            hxm har hxne
          exact bases_ne hdd (hlivewp x hxm) hwar
        have hxb_fr : x.base ≠ fr.base := by
          have hdd := cross_disj hdisj x hxm fr hfr
          exact bases_ne hdd (hlivewp x hxm) hwfr
        obtain ⟨p, hp, hpb, hpm⟩ := hown x hxm
        have hp1 : p.1 ≠ pA.1 := by
          intro he
          have hpe : p = (pA.1, x.base) := by rw [← he, ← hpb]
          exact hxb_ar (key_unique hnd (hpe ▸ hp) hentA)
        refine ⟨p, mem_updateBinding_ne hp hp1 fr.base, hpb, ?_⟩
        rw [hget_other x.base hxb_fr hxb_ar]
        exact hpm
    · -- nullNonBase
      intro i hi hnb
      by_cases hiar : i = ar.base
      · subst hiar
        exact hget_ar
      · by_cases hifr : i = fr.base
        · exfalso
          refine hnb ⟨Run.mk fr.base ar.width, ?_, hifr.symm⟩
          rw [hlive']
          exact List.mem_cons_self _ _
        · rw [hget_other i hifr hiar]
          rw [hnum'] at hi
          refine hnnb i hi ?_
          rintro ⟨y, hy, hyb⟩
          have hyne : y ≠ ar := fun he => hiar (by rw [← hyb, he])
          refine hnb ⟨y, ?_, hyb⟩
          rw [hlive']
          exact List.mem_cons.mpr (Or.inr ((List.mem_erase_of_ne hyne).mpr hy))
    · -- bindEntries
      intro q hq
      rw [hbinde] at hq
      obtain ⟨p, hp, hqe⟩ := List.mem_map.mp hq
      by_cases hph : p.1 = pA.1
      · rw [if_pos hph] at hqe
        subst hqe
        constructor
        · refine ⟨Run.mk fr.base ar.width, ?_, rfl⟩
          rw [hlive']
          exact List.mem_cons_self _ _
        · show (moveRun s ar fr).mot.getD fr.base none = some p.1
          rw [hph]
          exact hget_fr
      · rw [if_neg hph] at hqe
        subst hqe
        obtain ⟨hlb, hge⟩ := hbe p hp
        obtain ⟨y, hy, hyb⟩ := hlb
        have hyne : y ≠ ar := by
          intro he
          have hpb_ar : p.2 = ar.base := by rw [← hyb, he]
          rw [hpb_ar, hmotA] at hge
          exact hph (Option.some.inj hge).symm
        have hpb_ne_ar : p.2 ≠ ar.base := by
          rw [← hyb]
          have hdd := List.Pairwise.forall runDisj_symm (pairwise_left hdisj)
            hy har hyne
          exact bases_ne hdd (hlivewp y hy) hwar
        have hpb_ne_fr : p.2 ≠ fr.base := by
          rw [← hyb]
          have hdd := cross_disj hdisj y hy fr hfr
          exact bases_ne hdd (hlivewp y hy) hwfr
        refine ⟨⟨y, ?_, hyb⟩, ?_⟩
        · rw [hlive']
          exact List.mem_cons.mpr (Or.inr ((List.mem_erase_of_ne hyne).mpr hy))
        · rw [hget_other p.2 hpb_ne_fr hpb_ne_ar]
          exact hge
    · rw [hbinde, updateBinding_keys]
      exact hnd
  have hpres : PreservesRuns s (moveRun s ar fr) := by
    intro h0 r0 hr0 hb0
    have hent0 : (h0, r0.base) ∈ s.bindings := blookup_mem hb0
    have hdlen : ar.base + ar.width ≤ s.data.length := by omega
    have hslen : (slice s.data ar.base ar.width).length = ar.width :=
      slice_length s.data ar.base ar.width hdlen
    by_cases hr0a : r0 = ar
    · have hh0 : h0 = pA.1 := by
        obtain ⟨-, hge⟩ := hbe (h0, r0.base) hent0
        have hge' : s.mot.getD r0.base none = some h0 := hge
        rw [hr0a, hmotA] at hge'
        exact (Option.some.inj hge').symm
      refine ⟨fr.base, ?_, ?_, ?_⟩
      · rw [hbinde, hh0]
        exact blookup_updateBinding_self fr.base (hh0 ▸ hb0)
      · rw [hr0a, hlive']
        exact List.mem_cons_self _ _
      · rw [hr0a, hdatae]
        have hsw := slice_sliceWrite_self s.data (slice s.data ar.base ar.width)
          fr.base (by rw [hslen]; omega)
        rw [hslen] at hsw
        exact hsw
    · have hh0 : h0 ≠ pA.1 := by
        intro he
        have hbe0 : r0.base = ar.base := key_unique hnd (he ▸ hent0) hentA
        have hdd := List.Pairwise.forall runDisj_symm (pairwise_left hdisj)
          hr0 har hr0a
        exact bases_ne hdd (hlivewp r0 hr0) hwar hbe0
      refine ⟨r0.base, ?_, ?_, ?_⟩
      · rw [hbinde, blookup_updateBinding_ne s.bindings fr.base hh0]
        exact hb0
      · rw [hlive']
        exact List.mem_cons.mpr (Or.inr ((List.mem_erase_of_ne hr0a).mpr hr0))
      · rw [hdatae]
        apply slice_sliceWrite_outside
        have hdd := cross_disj hdisj r0 hr0 fr hfr
        rw [hslen]
        rcases hdd with h | h
        · right
          omega
        · left
          omega
  have huni : ∀ w, Uniform w s → Uniform w (moveRun s ar fr) := by
    intro w hu x hx
    rcases List.mem_append.mp hx with hxl | hxf
    · rw [hlive'] at hxl
      rcases List.mem_cons.mp hxl with he | ht
      · subst he
        show ar.width = w
        exact hu ar (List.mem_append.mpr (Or.inl har))
      · exact hu x (List.mem_append.mpr (Or.inl (List.mem_of_mem_erase ht)))
    · rcases hfree'_mem x hxf with ht | ⟨hlw, he⟩
      · exact hu x (List.mem_append.mpr (Or.inr (List.mem_of_mem_erase ht)))
      · exfalso
        have h1 : ar.width = w := hu ar (List.mem_append.mpr (Or.inl har))
        have h2 : fr.width = w := hu fr (List.mem_append.mpr (Or.inr hfr))
        omega
  have hsum : sumW (moveRun s ar fr).alloc.free + 1 ≤ sumW s.alloc.free := by
    have he := sumW_erase hfr
    rw [hfree']
    by_cases hlw : ar.width < fr.width
    · rw [if_pos hlw, sumW_cons]
      show fr.width - ar.width + sumW (s.alloc.free.erase fr) + 1 ≤ sumW s.alloc.free
      omega
    · rw [if_neg hlw]
      omega
  exact ⟨hLinv', hpres, huni, hsum, hnum'⟩

theorem preservesRuns_refl (s : Sys) : PreservesRuns s s := by
  intro h r0 hr0 hb0
  exact ⟨r0.base, hb0, hr0, rfl⟩

theorem preservesRuns_trans {s0 s1 s2 : Sys} (h01 : PreservesRuns s0 s1)
    (h12 : PreservesRuns s1 s2) : PreservesRuns s0 s2 := by
  intro h r0 hr0 hb0
  obtain ⟨b1, hb1, hm1, hs1⟩ := h01 h r0 hr0 hb0
  obtain ⟨b2, hb2, hm2, hs2⟩ := h12 h (Run.mk b1 r0.width) hm1 hb1
  exact ⟨b2, hb2, hm2, hs2.trans hs1⟩

theorem free_nil_of_sumW {s : Sys} (hL : LInv s) (h0 : sumW s.alloc.free = 0) :
    s.alloc.free = [] := by
  obtain ⟨-, -, -, -, hwp, -⟩ := hL
  cases hf : s.alloc.free with
  | nil => rfl
  | cons r t =>
    exfalso
    have hw := hwp r (List.mem_append.mpr (Or.inr (by
      rw [hf]
      exact List.mem_cons_self r t)))
    rw [hf, sumW_cons] at h0
    omega

theorem defragStep?_none_of_nil {s : Sys} (hf : s.alloc.free = []) :
    defragStep? s = none := by
  unfold defragStep?
  rw [hf, List.argmin_nil]

theorem defragLoop_props : ∀ (fuel : Nat) (s : Sys), LInv s →
    LInv (defragLoop fuel s) ∧ PreservesRuns s (defragLoop fuel s) ∧
    (∀ w, Uniform w s → Uniform w (defragLoop fuel s)) ∧
    (sumW s.alloc.free ≤ fuel → defragStep? (defragLoop fuel s) = none) := by
  intro fuel
  induction fuel with
  | zero =>
    intro s hL
    refine ⟨hL, preservesRuns_refl s, fun w hu => hu, fun h0 => ?_⟩
    exact defragStep?_none_of_nil (free_nil_of_sumW hL (Nat.le_zero.mp h0))
  | succ f ih =>
    intro s hL
    cases hstep : defragStep? s with
    | none =>
      have he : defragLoop (f + 1) s = s := by
        simp only [defragLoop, hstep]
      rw [he]
      exact ⟨hL, preservesRuns_refl s, fun w hu => hu, fun _ => hstep⟩
    | some s' =>
      have he : defragLoop (f + 1) s = defragLoop f s' := by
        simp only [defragLoop, hstep]
      obtain ⟨fr, ar, hmin, hmax, hb, hf2, hse⟩ := defragStep_elim hstep
      subst hse
      obtain ⟨hL', hpres', huni', hsum', hnum'⟩ := moveRun_props hL hmin hmax hb hf2
      obtain ⟨ihL, ihpres, ihuni, ihstop⟩ := ih (moveRun s ar fr) hL'
      rw [he]
      exact ⟨ihL, preservesRuns_trans hpres' ihpres,
        fun w hu => ihuni w (huni' w hu), fun hle => ihstop (by omega)⟩

theorem maxEnd_attained : ∀ {l : List Run}, l ≠ [] →
    ∃ r ∈ l, r.base + r.width = maxEnd l := by
  intro l
  induction l with
  | nil => intro h; exact absurd rfl h
  | cons a t ih =>
    intro _
    rw [maxEnd_cons]
    by_cases ht : t = []
    · subst ht
      refine ⟨a, List.mem_cons_self _ _, ?_⟩
      show a.base + a.width = max (a.base + a.width) (maxEnd [])
      have h0 : maxEnd ([] : List Run) = 0 := rfl
      omega
    · obtain ⟨r, hr, hre⟩ := ih ht
      by_cases hc : maxEnd t ≤ a.base + a.width
      · exact ⟨a, List.mem_cons_self _ _, (Nat.max_eq_left hc).symm⟩
      · refine ⟨r, List.mem_cons.mpr (Or.inr hr), ?_⟩
        rw [hre, Nat.max_eq_right (by omega)]

/-- The final truncation of `Defragment` restores the full invariant and
keeps every bound handle's run and data. -/
theorem truncate_props {s : Sys} (hL : LInv s) :
    Inv (truncateSys s) ∧ PreservesRuns s (truncateSys s) := by
  obtain ⟨hml, hdl, hdisj, hbnd, hwp, hcovb, hown, hnnb, hbe, hnd⟩ := hL
  have hnle : maxEnd s.alloc.live ≤ s.alloc.num :=
    maxEnd_le fun r hr => hbnd r (List.mem_append.mpr (Or.inl hr))
  have hlive' : (truncateSys s).alloc.live = s.alloc.live := rfl
  have hfree' : (truncateSys s).alloc.free =
      s.alloc.free.filter
        (fun r => decide (r.base + r.width ≤ maxEnd s.alloc.live)) := rfl
  have hnum' : (truncateSys s).alloc.num = maxEnd s.alloc.live := rfl
  have hmote : (truncateSys s).mot = s.mot.take (maxEnd s.alloc.live) := rfl
  have hdatae : (truncateSys s).data = s.data.take (maxEnd s.alloc.live) := rfl
  have hbinde : (truncateSys s).bindings = s.bindings := rfl
  have hfmem : ∀ y, y ∈ (truncateSys s).alloc.free ↔
      y ∈ s.alloc.free ∧ y.base + y.width ≤ maxEnd s.alloc.live := by
    intro y
    rw [hfree', List.mem_filter]
    constructor
    · rintro ⟨h1, h2⟩
      exact ⟨h1, of_decide_eq_true h2⟩
    · rintro ⟨h1, h2⟩
      exact ⟨h1, decide_eq_true h2⟩
  have hlivebound : ∀ r ∈ s.alloc.live, r.base + r.width ≤ maxEnd s.alloc.live :=
    fun r hr => le_maxEnd hr
  have hfsub : List.Sublist ((truncateSys s).alloc.free) s.alloc.free := by
    rw [hfree']
    exact List.filter_sublist s.alloc.free
  constructor
  · refine ⟨?_, ?_, ?_, ?_, ?_, ?_, ?_, ?_, ?_, ?_⟩
    · rw [hmote, hnum', List.length_take]
      omega
    · rw [hdatae, hnum', List.length_take]
      omega
    · exact List.Pairwise.sublist
        (List.Sublist.append (List.Sublist.refl s.alloc.live) hfsub) hdisj
    · intro x hx
      rw [hnum']
      rcases List.mem_append.mp hx with hxl | hxf
      · exact hlivebound x hxl
      · exact ((hfmem x).mp hxf).2
    · intro x hx
      rcases List.mem_append.mp hx with hxl | hxf
      · exact hwp x (List.mem_append.mpr (Or.inl hxl))
      · exact hwp x (List.mem_append.mpr (Or.inr ((hfmem x).mp hxf).1))
    · intro i hi
      rw [hnum'] at hi
      obtain ⟨r, hrm, hrlo, hrhi⟩ := hcovb i hi
      rcases List.mem_append.mp hrm with hrl | hrf
      · exact ⟨r, List.mem_append.mpr (Or.inl hrl), hrlo, hrhi⟩
      · refine ⟨r, List.mem_append.mpr (Or.inr ((hfmem r).mpr ⟨hrf, ?_⟩)), hrlo, hrhi⟩
        by_contra hgt
        have hlne : s.alloc.live ≠ [] := by
          intro he
          have h0 : maxEnd s.alloc.live = 0 := by rw [he]; rfl
          omega
        obtain ⟨al, hal, hale⟩ := maxEnd_attained hlne
        have hdd := cross_disj hdisj al hal r hrf
        have hwal := hwp al (List.mem_append.mpr (Or.inl hal))
        rcases hdd with h | h <;> omega
    · intro x hx
      unfold ownerOk
      rw [hbinde, hmote]
      obtain ⟨p, hp, hpb, hpm⟩ := hown x hx
      refine ⟨p, hp, hpb, ?_⟩
      rw [getD_take_lt]
      · exact hpm
      · have h1 := hlivebound x hx
        have h2 := hwp x (List.mem_append.mpr (Or.inl hx))
        omega
    · intro i hi hnb
      rw [hnum'] at hi
      rw [hmote, getD_take_lt s.mot _ _ none hi]
      exact hnnb i (by omega) hnb
    · intro p hp
      rw [hbinde] at hp
      obtain ⟨hlb, hge⟩ := hbe p hp
      obtain ⟨y, hy, hyb⟩ := hlb
      refine ⟨⟨y, hy, hyb⟩, ?_⟩
      rw [hmote, getD_take_lt]
      · exact hge
      · have h1 := hlivebound y hy
        have h2 := hwp y (List.mem_append.mpr (Or.inl hy))
        omega
    · rw [hbinde]
      exact hnd
  · intro h r0 hr0 hb0
    refine ⟨r0.base, hb0, hr0, ?_⟩
    rw [hdatae]
    apply slice_take
    exact hlivebound r0 hr0

/-- `Defragment` preserves the full invariant and every bound handle's run
and per-slot data. -/
theorem inv_defragment {s : Sys} (hInv : Inv s) :
    Inv (defragment s) ∧ PreservesRuns s (defragment s) := by
  have hL := inv_to_linv hInv
  obtain ⟨hL', hpres, -, -⟩ := defragLoop_props (sumW s.alloc.free) s hL
  obtain ⟨hI, hp2⟩ := truncate_props hL'
  exact ⟨hI, preservesRuns_trans hpres hp2⟩

/-- Every state reachable by valid public operations satisfies the
invariant. -/
theorem reach_inv {s : Sys} (hs : Reach s) : Inv s := by
  induction hs with
  | nil => decide
  | snoc hr hv ih =>
    rename_i s0 o
    cases o with
    | init h w vals => exact inv_init ih vals hv.1 hv.2
    | remove b => exact inv_remove ih hv
    | transfer b h => exact inv_transfer ih hv.1 hv.2
    | defrag => exact (inv_defragment ih).1

/-- C2: between public operations (creation, removal, transfer and
defragmentation, starting from the empty processor with programmer-contract
preconditions respected), every live run `[b, b+w)` has its owning handle at
`back_pointer[b]`, null back-pointers on all interior slots
`b+1 .. b+w-1`, and that handle bound to base `b` of this processor. -/
theorem claim2_backpointer_invariant {s : Sys} (hs : Reach s) :
    ∀ r ∈ s.alloc.live, ∃ h, s.mot.getD r.base none = some h ∧
      (∀ j, 0 < j → j < r.width → s.mot.getD (r.base + j) none = none) ∧
      blookup s.bindings h = some r.base := by
  have hInv := reach_inv hs
  intro r hr
  obtain ⟨h, hm, hb⟩ := inv_owner hInv hr
  refine ⟨h, hm, ?_, hb⟩
  intro j hj0 hjw
  obtain ⟨hml, hdl, hdisj, hbnd, hwp, hcov, hown, hnnb, hbe, hnd⟩ := hInv
  have hbr := hbnd r (List.mem_append.mpr (Or.inl hr))
  refine hnnb (r.base + j) (by omega) ?_
  rintro ⟨y, hy, hyb⟩
  have hyne : y ≠ r := by
    intro he
    subst he
    omega
  have hdd := List.Pairwise.forall runDisj_symm (pairwise_left hdisj) hy hr hyne
  have hwy := hwp y (List.mem_append.mpr (Or.inl hy))
  rcases hdd with hc | hc <;> omega

theorem claim2_witness :
    Reach v1ex ∧
    ∃ h, v1ex.mot.getD 0 none = some h ∧
      (∀ j, 0 < j → j < 2 → v1ex.mot.getD (0 + j) none = none) ∧
      blookup v1ex.bindings h = some 0 := by
  have hreach : Reach v1ex :=
    @Reach.snoc sys0 (Op.init 5 2 [7, 8]) Reach.nil (by decide)
  exact ⟨hreach, claim2_backpointer_invariant hreach (Run.mk 0 2) (by decide)⟩

theorem mem_runsSet {l : List Run} {i : Nat} : i ∈ runsSet l ↔ inRuns l i := by
  induction l with
  | nil =>
    show i ∈ (∅ : Finset Nat) ↔ _
    simp only [Finset.not_mem_empty, false_iff]
    rintro ⟨r, hr, -⟩
    cases hr
  | cons a t ih =>
    show i ∈ Finset.Ico a.base (a.base + a.width) ∪ runsSet t ↔ _
    rw [Finset.mem_union, Finset.mem_Ico, ih]
    constructor
    · rintro (h | h)
      · exact ⟨a, List.mem_cons_self _ _, h.1, h.2⟩
      · obtain ⟨r, hr, hx⟩ := h
        exact ⟨r, List.mem_cons.mpr (Or.inr hr), hx⟩
    · rintro ⟨r, hr, hx⟩
      rcases List.mem_cons.mp hr with he | ht
      · subst he
        exact Or.inl ⟨hx.1, hx.2⟩
      · exact Or.inr ⟨r, ht, hx⟩

theorem card_runsSet {l : List Run} (hd : l.Pairwise RunDisj) :
    (runsSet l).card = sumW l := by
  induction l with
  | nil => rfl
  | cons a t ih =>
    rw [List.pairwise_cons] at hd
    have hdisj : Disjoint (Finset.Ico a.base (a.base + a.width)) (runsSet t) := by
      rw [Finset.disjoint_left]
      intro x hx hxt
      rw [Finset.mem_Ico] at hx
      obtain ⟨r, hr, hlo, hhi⟩ := mem_runsSet.mp hxt
      rcases hd.1 r hr with hc | hc <;> omega
    show (Finset.Ico a.base (a.base + a.width) ∪ runsSet t).card = sumW (a :: t)
    rw [Finset.card_union_of_disjoint hdisj, Nat.card_Ico, sumW_cons, ih hd.2]
    omega

/-- Disjoint runs within `[0, n)` covering all of `[0, n)` have total width
exactly `n`. -/
theorem tiled_sum {l : List Run} {n : Nat} (hd : l.Pairwise RunDisj)
    (hbound : ∀ r ∈ l, r.base + r.width ≤ n)
    (hcov : ∀ i < n, inRuns l i) : sumW l = n := by
  have he : runsSet l = Finset.range n := by
    apply Finset.ext
    intro i
    rw [Finset.mem_range, mem_runsSet]
    constructor
    · rintro ⟨r, hr, hlo, hhi⟩
      have := hbound r hr
      omega
    · intro hi
      exact hcov i hi
  rw [← card_runsSet hd, he, Finset.card_range]

/-- In a stopped defragmentation state with uniform widths, the live runs
alone cover everything below the highest live end: no free run can remain
underneath, because a same-width free run below the highest live run would
still admit a relocation. -/
theorem stopped_uniform_coverage {t : Sys} (hL : LInv t) {w : Nat}
    (hu : Uniform w t) (hstop : defragStep? t = none) :
    ∀ i < maxEnd t.alloc.live, inRuns t.alloc.live i := by
  obtain ⟨hml, hdl, hdisj, hbnd, hwp, hcovb, hown, hnnb, hbe, hnd⟩ := hL
  intro i hi
  obtain ⟨r, hrm, hrlo, hrhi⟩ := hcovb i hi
  rcases List.mem_append.mp hrm with hrl | hrf
  · exact ⟨r, hrl, hrlo, hrhi⟩
  · exfalso
    have hlne : t.alloc.live ≠ [] := by
      intro he
      rw [he] at hi
      have h0 : maxEnd ([] : List Run) = 0 := rfl
      omega
    cases hmax : t.alloc.live.argmax Run.base with
    | none => exact hlne (List.argmax_eq_none.mp hmax)
    | some ar =>
      cases hmin : t.alloc.free.argmin Run.base with
      | none =>
        have hfe : t.alloc.free = [] := List.argmin_eq_none.mp hmin
        rw [hfe] at hrf
        cases hrf
      | some fr =>
        have hcond : ¬ (fr.base + fr.width ≤ ar.base ∧ ar.width ≤ fr.width) := by
          intro hc
          unfold defragStep? at hstop
          rw [hmin, hmax] at hstop
          have hstop' : (if fr.base + fr.width ≤ ar.base ∧ ar.width ≤ fr.width then
              some (moveRun t ar fr) else none) = none := hstop
          rw [if_pos hc] at hstop'
          cases hstop'
        have har := List.argmax_mem hmax
        have hfrm := List.argmin_mem hmin
        have hwar : ar.width = w := hu ar (List.mem_append.mpr (Or.inl har))
        have hwfr : fr.width = w := hu fr (List.mem_append.mpr (Or.inr hfrm))
        have hmaxe : maxEnd t.alloc.live = ar.base + ar.width :=
          maxEnd_argmax (pairwise_left hdisj)
            (fun x hx => hwp x (List.mem_append.mpr (Or.inl hx))) hmax
        have hfrle : fr.base ≤ r.base := List.le_of_mem_argmin hrf hmin
        have hdd := cross_disj hdisj ar har fr hfrm
        rcases hdd with hc | hc
        · omega
        · exact hcond ⟨by omega, by omega⟩

/-- C1 fails as stated: `cxS` is a valid processor state (it satisfies the
internal invariant, and arises from allocating widths 1 and 2 and removing
the width-1 handle), yet after `Defragment()` its live runs do not occupy
the contiguous prefix `[0, total_live_slots)`: the width-2 live run cannot
be relocated into the width-1 free run below it, so it stays at base 1 and
slot 0 remains a gap. -/
theorem claim1_counterexample :
    Inv cxS ∧
    ¬ ((∀ r ∈ (defragment cxS).alloc.live,
          r.base + r.width ≤ sumW (defragment cxS).alloc.live) ∧
        (∀ i < sumW (defragment cxS).alloc.live,
          inRuns (defragment cxS).alloc.live i)) := by
  constructor
  · decide
  · decide

/-- C1 amended: after `Defragment()`, every live handle's bound slot still
resolves to the same per-slot state it had before (values preserved across
relocation) — unconditionally; and the live runs occupy the contiguous
prefix `[0, total_live_slots)` of slot space with no gaps whenever all runs
share one common width (with mixed widths a free run too narrow for the
highest live run can survive, leaving a gap). -/
theorem claim1_amended (s : Sys) (hInv : Inv s) :
    PreservesRuns s (defragment s) ∧
    (∀ w, Uniform w s →
      (defragment s).alloc.num = sumW (defragment s).alloc.live ∧
      (∀ r ∈ (defragment s).alloc.live,
        r.base + r.width ≤ sumW (defragment s).alloc.live) ∧
      (∀ i < sumW (defragment s).alloc.live,
        inRuns (defragment s).alloc.live i)) := by
  have hL := inv_to_linv hInv
  obtain ⟨hL', hpres, huni', hstop⟩ := defragLoop_props (sumW s.alloc.free) s hL
  obtain ⟨hI, hp2⟩ := truncate_props hL'
  refine ⟨preservesRuns_trans hpres hp2, ?_⟩
  intro w hu
  have hut : Uniform w (defragLoop (sumW s.alloc.free) s) := huni' w hu
  have hcovlive : ∀ i < maxEnd (defragLoop (sumW s.alloc.free) s).alloc.live,
      inRuns (defragLoop (sumW s.alloc.free) s).alloc.live i :=
    stopped_uniform_coverage hL' hut (hstop (Nat.le_refl _))
  have hlive' : (defragment s).alloc.live =
      (defragLoop (sumW s.alloc.free) s).alloc.live := rfl
  have hnum' : (defragment s).alloc.num =
      maxEnd (defragLoop (sumW s.alloc.free) s).alloc.live := rfl
  obtain ⟨hml, hdl, hdisj, hbnd, hwp, hcovb, -⟩ := hL'
  have hsum : sumW (defragLoop (sumW s.alloc.free) s).alloc.live =
      maxEnd (defragLoop (sumW s.alloc.free) s).alloc.live :=
    tiled_sum (pairwise_left hdisj) (fun r hr => le_maxEnd hr) hcovlive
  refine ⟨?_, ?_, ?_⟩
  · rw [hnum', hlive', hsum]
  · intro r hr
    rw [hlive'] at hr
    rw [hlive', hsum]
    exact le_maxEnd hr
  · intro i hi
    rw [hlive', hsum] at hi
    rw [hlive']
    exact hcovlive i hi

theorem claim1_witness :
    Inv uxS ∧ Uniform 2 uxS ∧
    (defragment uxS).alloc.num = sumW (defragment uxS).alloc.live ∧
    (∀ i < sumW (defragment uxS).alloc.live,
      inRuns (defragment uxS).alloc.live i) := by
  have hc := (claim1_amended uxS (by decide)).2 2 (by decide)
  exact ⟨by decide, by decide, hc.1, hc.2.2⟩

theorem claim7_witness :
    (v1ex.alloc.live.Pairwise RunDisj) ∧
    Dimensions v1ex 0 = 2 ∧ Dimensions v1ex 1 = 0 := by
  refine ⟨by decide, ?_, ?_⟩
  · exact (claim7_dimensions v1ex 0 (by decide) (by decide)).2.1 (Run.mk 0 2) (by decide) rfl
  · exact (claim7_dimensions v1ex 1 (by decide) (by decide)).2.2
      ⟨Run.mk 0 2, by decide, by decide, by decide⟩

end MotiveSpec

